/-
Verification of the sharded identifier-to-object map of go-fuse
(fs/shardedmap: mapPool, mapShard, shardedMap; fs/simplemap: simpleMap).

The Go source is shallowly embedded: Go maps become association lists with
no duplicate keys together with an allocation-capacity hint (the `make`
size hint; Go map capacity is not observable through the API, but the hint
is part of the allocation request and `clear` preserves the allocated
storage); `sync.Pool` buckets become per-index stacks (their reuse
behavior without GC eviction); machine integers become Nat/Int with
explicit `% 2 ^ w` at the points where Go converts or wraps.  Keys and
values are instantiated at Nat (the primary use case is `uint64` keys with
opaque reference values).  Locks and goroutines are erased: every Go
critical section is a pure state transformer, and sequences of operations
model the serialized per-shard histories.  The map-level `Compact` of
`shardedMap` is rate-limited by a wall clock and is not modelled; no claim
below depends on it.
-/
import Mathlib

/-! ## Constants (from the `const` block of the sharded map source) -/

/-- `mapShards = 32`: number of shards, must be a power of two. -/
def mapShards : Nat := 32

/-- `defaultMapSize = 32`: initial size for new maps. -/
def defaultMapSize : Nat := 32

/-- `maxMapPower = 20`: maximum power of 2 for pooled maps. -/
def maxMapPower : Nat := 20

/-- `maxMapSize = 1 << maxMapPower`: maximum size for pooled maps. -/
def maxMapSize : Nat := 2 ^ maxMapPower

/-- `mapShrinkFactor = 8`: shrink factor for map compaction. -/
def mapShrinkFactor : Int := 8

/-! ## Power-of-two logarithms (`nextLogBase2`, `prevLogBase2`)

`bits.Len32 x` is the number of bits required to represent the `uint32`
value `x`, i.e. `0` for `x = 0` and `floor(log2 x) + 1` otherwise.  It is
embedded as the count of those `i ≤ 32` with `2 ^ i ≤ x`, which agrees
with that description on every `x < 2 ^ 32`. -/

/-- `bits.Len32`: minimal number of bits to represent a `uint32` value. -/
def len32 (x : Nat) : Nat :=
  (List.range 33).countP (fun i => decide (2 ^ i ≤ x))

/-- `nextLogBase2(v) = uint32(bits.Len32(v - 1))`; the subtraction is
`uint32` arithmetic, hence the wrap-around `% 2 ^ 32`. -/
def nextLogBase2 (v : Nat) : Nat :=
  len32 ((v + (2 ^ 32 - 1)) % 2 ^ 32)

/-- `prevLogBase2(num)`: `next := nextLogBase2 num`; if `num == 1 << next`
(`uint32` shift, hence `% 2 ^ 32`) return `next`, else `next - 1`. -/
def prevLogBase2 (num : Nat) : Nat :=
  let next := nextLogBase2 num
  if num = (1 <<< next) % 2 ^ 32 then next else next - 1

/-! ## Backing tables (Go `map[K]V` values)

A table is an association list of entries (no key occurs twice; all
operations preserve this) plus the capacity hint it was allocated with.
`tblLookup`, `tblInsert`, `tblErase` embed Go map indexing, assignment and
`delete`; `tblCopyAll` embeds `for k, v := range src { dst[k] = v }`. -/

/-- A Go `map[uint64]V` value: entries plus the `make` capacity hint. -/
structure Table where
  entries : List (Nat × Nat)
  cap : Nat
deriving Repr, DecidableEq

/-- Go map indexing `m[k]`: `some v` iff the key is present with value `v`. -/
def tblLookup : List (Nat × Nat) → Nat → Option Nat
  | [], _ => none
  | e :: rest, key => if e.1 = key then some e.2 else tblLookup rest key

/-- Go map assignment `m[k] = v` (silent overwrite). -/
def tblInsert : List (Nat × Nat) → Nat → Nat → List (Nat × Nat)
  | [], key, val => [(key, val)]
  | e :: rest, key, val =>
    if e.1 = key then (key, val) :: rest else e :: tblInsert rest key val

/-- Go `delete(m, k)`. -/
def tblErase : List (Nat × Nat) → Nat → List (Nat × Nat)
  | [], _ => []
  | e :: rest, key => if e.1 = key then rest else e :: tblErase rest key

/-- Go `for k, v := range src { dst[k] = v }`. -/
def tblCopyAll (src dst : List (Nat × Nat)) : List (Nat × Nat) :=
  src.foldl (fun acc e => tblInsert acc e.1 e.2) dst

/-! ## The size-classed pool (`mapPool`)

`pools [maxMapPower]sync.Pool` becomes a family of stacks indexed by
`Nat`; the guards `idx >= maxMapPower` in `Get`/`Put` keep every access
inside the array bounds `0 .. maxMapPower - 1`, exactly as in the source. -/

/-- `mapPool`: size-classed free lists of cleared tables. -/
structure mapPool where
  defaultSize : Nat
  maxSize : Nat
  buckets : Nat → List Table

/-- `mapPool.Get(length uint32)`: substitute `defaultSize` for 0, allocate
untracked beyond `maxSize` or beyond the bucket range, else pop from
bucket `nextLogBase2 length` or allocate fresh with capacity `1 << idx`.
Returns the table and the pool after the (possible) pop. -/
def mapPool.Get (p : mapPool) (length : Nat) : Table × mapPool :=
  let length := if length = 0 then p.defaultSize else length
  if length > p.maxSize then (⟨[], length⟩, p)
  else
    let idx := nextLogBase2 (length % 2 ^ 32)
    if idx ≥ maxMapPower then (⟨[], length⟩, p)
    else
      match p.buckets idx with
      | t :: rest =>
        (t, { p with buckets := fun i => if i = idx then rest else p.buckets i })
      | [] => (⟨[], 2 ^ idx⟩, p)

/-- `mapPool.Put(m)`: discard empty or over-`maxSize` tables and tables
whose bucket index `prevLogBase2 length` is out of range; otherwise clear
the table (capacity preserved) and push it onto its bucket. -/
def mapPool.Put (p : mapPool) (m : Table) : mapPool :=
  let mapLength := m.entries.length
  if mapLength = 0 ∨ mapLength > p.maxSize then p
  else
    let idx := prevLogBase2 (mapLength % 2 ^ 32)
    if idx ≥ maxMapPower then p
    else
      { p with buckets := fun i =>
          if i = idx then ⟨[], m.cap⟩ :: p.buckets i else p.buckets i }

/-- The pool a `shardedMap.Init` creates: `defaultMapSize`/`maxMapSize`,
all buckets empty. -/
def pool0 : mapPool := ⟨defaultMapSize, maxMapSize, fun _ => []⟩

/-- The number of buckets the Pool maintains: the length of the
`pools [maxMapPower]sync.Pool` array. -/
def poolBucketCount : Nat := maxMapPower

/-! ## One shard (`mapShard`)

The shard's pool pointer is shared state, so every mutating operation
takes and returns the pool. -/

/-- `mapShard`: optional backing table, live count, high-water mark
(both `int32` in Go, embedded as `Int`). -/
structure mapShard where
  entries : Option Table
  count : Int
  countHigh : Int
deriving Repr, DecidableEq

/-- The zero value of a shard, as allocated by `shardedMap.Init`. -/
def shard0 : mapShard := ⟨none, 0, 0⟩

/-- `mapShard.Get`: nil table reports not-found, else map lookup. -/
def mapShard.Get (s : mapShard) (id : Nat) : Option Nat :=
  match s.entries with
  | none => none
  | some t => tblLookup t.entries id

/-- `mapShard.Set`: create the table from the pool (`defaultMapSize`) if
absent; decrement `count` on overwrite; insert; increment `count`; raise
`countHigh`. -/
def mapShard.Set (s : mapShard) (p : mapPool) (id val : Nat) :
    mapShard × mapPool :=
  let tp : Table × mapPool :=
    match s.entries with
    | none => p.Get defaultMapSize
    | some t => (t, p)
  let t := tp.1
  let p := tp.2
  let c := if (tblLookup t.entries id).isSome then s.count - 1 else s.count
  let c := c + 1
  (⟨some ⟨tblInsert t.entries id val, t.cap⟩, c,
    if c > s.countHigh then c else s.countHigh⟩, p)

/-- `mapShard.Compact`: full drain when `count == 0` (return table to the
pool, mark absent, reset both counters); no-op above `maxMapSize` or while
`count * mapShrinkFactor >= countHigh`; otherwise shrink into a pool table
requested at `uint32(count) * 2` and re-baseline both counters to
`len(newMap)`. -/
def mapShard.Compact (s : mapShard) (p : mapPool) : mapShard × mapPool :=
  if s.count = 0 then
    match s.entries with
    | some t => (⟨none, 0, 0⟩, p.Put t)
    | none => (⟨none, 0, 0⟩, p)
  else if s.count > (maxMapSize : Int) then (s, p)
  else if s.count * mapShrinkFactor ≥ s.countHigh then (s, p)
  else
    let old : Table := match s.entries with
      | some t => t
      | none => ⟨[], 0⟩
    let tp := p.Get ((((s.count % 2 ^ 32).toNat) * 2) % 2 ^ 32)
    let newE := tblCopyAll old.entries tp.1.entries
    (⟨some ⟨newE, tp.1.cap⟩, (newE.length : Int), (newE.length : Int)⟩,
      tp.2.Put old)

/-- `mapShard.Delete`: no-op when the table is absent or the key missing;
otherwise remove, decrement `count` and run `Compact`. -/
def mapShard.Delete (s : mapShard) (p : mapPool) (id : Nat) :
    mapShard × mapPool :=
  match s.entries with
  | none => (s, p)
  | some t =>
    if (tblLookup t.entries id).isSome then
      mapShard.Compact ⟨some ⟨tblErase t.entries id, t.cap⟩,
        s.count - 1, s.countHigh⟩ p
    else (s, p)

/-- `mapShard.Count`: snapshot of the live counter. -/
def mapShard.Count (s : mapShard) : Int := s.count

/-! ## Shard histories

A serialized history of one shard's operations, used to state the
invariants of reachable states. -/

/-- One operation of a shard history. -/
inductive ShardOp where
  | set (k v : Nat)
  | del (k : Nat)
  | compact
deriving Repr, DecidableEq

/-- Apply one operation to a shard-and-pool state. -/
def ShardOp.apply (sp : mapShard × mapPool) : ShardOp → mapShard × mapPool
  | .set k v => sp.1.Set sp.2 k v
  | .del k => sp.1.Delete sp.2 k
  | .compact => sp.1.Compact sp.2

/-- Run a history from the empty shard and the fresh pool. -/
def runShardOps (ops : List ShardOp) : mapShard × mapPool :=
  ops.foldl ShardOp.apply (shard0, pool0)

/-- Abstract live-key bookkeeping of a history: a key is live when its
most recent operation is a Set not superseded by a Delete.  Keys are kept
in first-Set order, mirroring Go map insertion into an association list. -/
def ShardOp.applyKeys (A : List Nat) : ShardOp → List Nat
  | .set k _ => if k ∈ A then A else A ++ [k]
  | .del k => A.erase k
  | .compact => A

/-- The keys live after a history. -/
def liveKeys (ops : List ShardOp) : List Nat :=
  ops.foldl ShardOp.applyKeys []

/-- The entry list a shard currently holds (empty when the table is
absent). -/
def tblOf (s : mapShard) : List (Nat × Nat) :=
  match s.entries with
  | none => []
  | some t => t.entries

/-! ## Scenario helpers: ranges of keys -/

/-- Keys `a, a+1, …, a+n-1`. -/
def keyList : Nat → Nat → List Nat
  | _, 0 => []
  | a, n + 1 => a :: keyList (a + 1) n

/-- Entries `(a, a), (a+1, a+1), …, (a+n-1, a+n-1)`: each key mapped to a
value it determines (distinct keys get distinct values). -/
def pairList : Nat → Nat → List (Nat × Nat)
  | _, 0 => []
  | a, n + 1 => (a, a) :: pairList (a + 1) n

/-- Set a list of key/value pairs into a shard, left to right. -/
def shardSetList (sp : mapShard × mapPool) (kvs : List (Nat × Nat)) :
    mapShard × mapPool :=
  kvs.foldl (fun sp e => sp.1.Set sp.2 e.1 e.2) sp

/-- Delete a list of keys from a shard, left to right. -/
def shardDeleteList (sp : mapShard × mapPool) (ks : List Nat) :
    mapShard × mapPool :=
  ks.foldl (fun sp k => sp.1.Delete sp.2 k) sp

/-! ## The baseline map (`simpleMap`) -/

/-- `simpleMap`: one optional backing table (nil before `Init`), the same
counter pair, no pool. -/
structure simpleMap where
  entries : Option Table
  count : Int
  countHigh : Int
deriving Repr, DecidableEq

/-- `simpleMap.Init`: allocate the table at `defaultMapSize`. -/
def simpleMap.Init : simpleMap := ⟨some ⟨[], defaultMapSize⟩, 0, 0⟩

/-- `simpleMap.Get` exposes only the stored value: absent keys and the
nil table read as the zero value (0 here). -/
def simpleMap.Get (m : simpleMap) (id : Nat) : Nat :=
  match m.entries with
  | none => 0
  | some t => (tblLookup t.entries id).getD 0

/-- `simpleMap.Set`: same insert/counter logic as the shard, but a fresh
`make` (no pool) when the table is nil. -/
def simpleMap.Set (m : simpleMap) (id val : Nat) : simpleMap :=
  let t : Table :=
    match m.entries with
    | none => ⟨[], defaultMapSize⟩
    | some t => t
  let c := if (tblLookup t.entries id).isSome then m.count - 1 else m.count
  let c := c + 1
  ⟨some ⟨tblInsert t.entries id val, t.cap⟩, c,
    if c > m.countHigh then c else m.countHigh⟩

/-- `simpleMap.Compact`: on `count == 0` replace the table by a fresh
`make(map, defaultMapSize)`; no-op while `count * 100 >= countHigh` (no
`maxSize` bound); otherwise copy into a fresh `make(map, count*2)` and
re-baseline both counters to `len(newMap)`. -/
def simpleMap.Compact (m : simpleMap) : simpleMap :=
  if m.count = 0 then ⟨some ⟨[], defaultMapSize⟩, 0, 0⟩
  else if m.count * 100 ≥ m.countHigh then m
  else
    let old : List (Nat × Nat) := match m.entries with
      | some t => t.entries
      | none => []
    let newE := tblCopyAll old []
    ⟨some ⟨newE, (m.count * 2).toNat⟩, (newE.length : Int),
      (newE.length : Int)⟩

/-- `simpleMap.Delete`: no-op for nil table or missing key, else remove,
decrement and `Compact`. -/
def simpleMap.Delete (m : simpleMap) (id : Nat) : simpleMap :=
  match m.entries with
  | none => m
  | some t =>
    if (tblLookup t.entries id).isSome then
      simpleMap.Compact ⟨some ⟨tblErase t.entries id, t.cap⟩,
        m.count - 1, m.countHigh⟩
    else m

/-- Set a list of key/value pairs into the baseline map. -/
def simpleSetList (m : simpleMap) (kvs : List (Nat × Nat)) : simpleMap :=
  kvs.foldl (fun m e => m.Set e.1 e.2) m

/-- Delete a list of keys from the baseline map. -/
def simpleDeleteList (m : simpleMap) (ks : List Nat) : simpleMap :=
  ks.foldl (fun m k => m.Delete k) m

/-! ## The sharded map (`shardedMap`) -/

/-- `shardedMap.getMapShardKey` on the `uint64` fast path:
`id & (mapShards - 1)`, no hashing. -/
def getMapShardKey (id : Nat) : Nat := id &&& (mapShards - 1)

/-- The shard index a key routes to. -/
def shardIdx (id : Nat) : Fin mapShards :=
  ⟨getMapShardKey id, Nat.lt_succ_of_le (Nat.and_le_right)⟩

/-- `shardedMap`: 32 shards plus the shared pool.  (The per-instance hash
seed only serves non-integer keys and the `lastCompact` timestamp only the
rate-limited map-level `Compact`; neither is modelled.) -/
structure shardedMap where
  shards : Fin mapShards → mapShard
  pool : mapPool

/-- `shardedMap.Init`: fresh shards sharing one fresh pool. -/
def shardedMap.Init : shardedMap := ⟨fun _ => shard0, pool0⟩

/-- `shardedMap.Get`: route, then delegate to exactly one shard. -/
def shardedMap.Get (m : shardedMap) (id : Nat) : Option Nat :=
  (m.shards (shardIdx id)).Get id

/-- `shardedMap.Set`: route, then delegate; the shard and the shared pool
are updated. -/
def shardedMap.Set (m : shardedMap) (id val : Nat) : shardedMap :=
  let i := shardIdx id
  let sp := (m.shards i).Set m.pool id val
  ⟨Function.update m.shards i sp.1, sp.2⟩

/-- `shardedMap.Delete`: route, then delegate. -/
def shardedMap.Delete (m : shardedMap) (id : Nat) : shardedMap :=
  let i := shardIdx id
  let sp := (m.shards i).Delete m.pool id
  ⟨Function.update m.shards i sp.1, sp.2⟩

/-- `shardedMap.Count`: sum of the per-shard snapshots (the fan-out/join
gathers one `Count` per shard and adds them; addition is commutative, so
the join order is irrelevant). -/
def shardedMap.Count (m : shardedMap) : Int :=
  Finset.univ.sum fun i : Fin mapShards => (m.shards i).Count

/-- Set a list of key/value pairs into the sharded map. -/
def mapSetList (m : shardedMap) (kvs : List (Nat × Nat)) : shardedMap :=
  kvs.foldl (fun m e => m.Set e.1 e.2) m

/-- Delete a list of keys from the sharded map. -/
def mapDeleteList (m : shardedMap) (ks : List Nat) : shardedMap :=
  ks.foldl (fun m k => m.Delete k) m

/-- The entries of a list that route to shard `i`. -/
def fiber (i : Fin mapShards) (l : List (Nat × Nat)) : List (Nat × Nat) :=
  l.filter fun e => decide (shardIdx e.1 = i)

/-! ## Invariants -/

/-- Every table retained in the pool has been cleared. -/
def PoolWF (p : mapPool) : Prop :=
  ∀ i t, t ∈ p.buckets i → t.entries = []

/-- Counter/table consistency of a shard, without the normalization that
an installed table is non-empty (that clause fails transiently between a
`Delete`'s removal and its `Compact`). -/
def WeakInv (s : mapShard) : Prop :=
  ((tblOf s).map Prod.fst).Nodup ∧
  s.count = ((tblOf s).length : Int) ∧
  s.count ≤ s.countHigh ∧
  (s.entries = none → s.countHigh = 0)

/-- Full invariant of shard states between operations. -/
def ShardInv (s : mapShard) : Prop :=
  WeakInv s ∧ ∀ t, s.entries = some t → t.entries ≠ []

/-- Invariant of the sharded map relative to the list of entries that are
currently stored: each shard holds exactly its fiber, and all shard and
pool invariants hold. -/
def MapInv (m : shardedMap) (l : List (Nat × Nat)) : Prop :=
  (∀ i, tblOf (m.shards i) = fiber i l ∧ ShardInv (m.shards i)) ∧
  PoolWF m.pool

/-! ## Concrete scenario states -/

/-- Shard state `⟨keys a..a+n-1, count n, high-water H⟩` with capacity
hint `c`. -/
def shardSt (a n c : Nat) (H : Int) : mapShard :=
  ⟨some ⟨pairList a n, c⟩, (n : Int), H⟩

/-- Baseline-map state `⟨keys a..a+n-1, count n, high-water H⟩` with
capacity hint `c`. -/
def simpleSt (a n c : Nat) (H : Int) : simpleMap :=
  ⟨some ⟨pairList a n, c⟩, (n : Int), H⟩

/-- C1 scenario: fill one shard with keys 0..999, then delete keys 0..899
one at a time (each `Delete` runs `Compact`). -/
def c1Run : mapShard × mapPool :=
  shardDeleteList (shardSetList (shard0, pool0) (pairList 0 1000))
    (keyList 0 900)

/-- The pool after the C1 scenario's single shrink: the old table (cleared,
capacity hint 32) was pushed onto bucket `prevLogBase2 124 = 6`. -/
def c1Pool : mapPool := pool0.Put ⟨pairList 876 124, 32⟩

/-- C5 scenario: fill the baseline map with keys 0..999, then delete keys
0..994 one at a time. -/
def c5Run : simpleMap :=
  simpleDeleteList (simpleSetList simpleMap.Init (pairList 0 1000))
    (keyList 0 995)

/-- C5 scenario, intermediate point: deleted down to `count = 100`. -/
def c5Run100 : simpleMap :=
  simpleDeleteList (simpleSetList simpleMap.Init (pairList 0 1000))
    (keyList 0 900)

/-- C4 scenario, set phase: keys 0..9999 into a fresh 32-shard map. -/
def c4SetRun : shardedMap := mapSetList shardedMap.Init (pairList 0 10000)

/-- C4 scenario, delete phase: all 10000 keys deleted again. -/
def c4DelRun : shardedMap := mapDeleteList c4SetRun (keyList 0 10000)

/-! # Lemmas

## Logarithm lemmas -/

lemma countP_range_le (n K : Nat) :
    (List.range n).countP (fun i => decide (i ≤ K)) = min n (K + 1) := by
  induction n with
  | zero => simp
  | succ n ih =>
    rw [List.range_succ, List.countP_append, ih, List.countP_cons]
    simp only [List.countP_nil]
    by_cases h : n ≤ K
    · simp [h]; omega
    · simp [h]; omega

lemma len32_eq_log {x : Nat} (hx : 0 < x) (hlt : x < 2 ^ 32) :
    len32 x = Nat.log 2 x + 1 := by
  unfold len32
  rw [List.countP_congr (q := fun i => decide (i ≤ Nat.log 2 x))]
  · rw [countP_range_le]
    have hlog : Nat.log 2 x < 32 :=
      (Nat.lt_pow_iff_log_lt one_lt_two hx.ne').mp hlt
    omega
  · intro i _
    simpa using (Nat.pow_le_iff_le_log one_lt_two hx.ne')

lemma len32_zero : len32 0 = 0 := by decide

lemma clog2_eq_log_pred {v : Nat} (h2 : 2 ≤ v) :
    Nat.clog 2 v = Nat.log 2 (v - 1) + 1 := by
  apply le_antisymm
  · rw [← Nat.le_pow_iff_clog_le one_lt_two]
    have h1 : v - 1 < 2 ^ (Nat.log 2 (v - 1) + 1) := by
      simpa using Nat.lt_pow_succ_log_self one_lt_two (v - 1)
    omega
  · have hp : 2 ^ Nat.log 2 (v - 1) ≤ v - 1 :=
      Nat.pow_log_le_self 2 (by omega)
    have hlt : 2 ^ Nat.log 2 (v - 1) < v := by omega
    have := (Nat.pow_lt_iff_lt_clog one_lt_two).mp hlt
    omega

lemma nextLogBase2_eq_clog {v : Nat} (hv : 0 < v) (hlt : v < 2 ^ 32) :
    nextLogBase2 v = Nat.clog 2 v := by
  unfold nextLogBase2
  have hmod : (v + (2 ^ 32 - 1)) % 2 ^ 32 = v - 1 := by omega
  rw [hmod]
  rcases Nat.lt_or_ge v 2 with h1 | h2
  · have : v = 1 := by omega
    subst this
    simp [len32_zero, Nat.clog_one_right 2]
  · rw [len32_eq_log (by omega) (by omega), clog2_eq_log_pred h2]

lemma log2_pred_of_not_pow {v : Nat} (h2 : 2 ≤ v) (hnp : ¬∃ k, v = 2 ^ k) :
    Nat.log 2 (v - 1) = Nat.log 2 v := by
  have hne : 2 ^ Nat.log 2 v ≠ v := fun h => hnp ⟨Nat.log 2 v, h.symm⟩
  have hle : 2 ^ Nat.log 2 v ≤ v := Nat.pow_log_le_self 2 (by omega)
  have hlow : 2 ^ Nat.log 2 v ≤ v - 1 := by omega
  have h1 : Nat.log 2 v ≤ Nat.log 2 (v - 1) :=
    (Nat.pow_le_iff_le_log one_lt_two (by omega)).mp hlow
  have h2' : Nat.log 2 (v - 1) ≤ Nat.log 2 v := Nat.log_mono_right (by omega)
  omega

lemma prevLogBase2_def (v : Nat) :
    prevLogBase2 v = if v = (1 <<< nextLogBase2 v) % 2 ^ 32 then
      nextLogBase2 v else nextLogBase2 v - 1 := rfl

lemma prevLogBase2_eq_log {v : Nat} (hv : 0 < v) (hlt : v < 2 ^ 32) :
    prevLogBase2 v = Nat.log 2 v := by
  rw [prevLogBase2_def]
  by_cases hpow : ∃ k, v = 2 ^ k
  · obtain ⟨k, rfl⟩ := hpow
    have hk : k < 32 := by
      have := (Nat.pow_lt_pow_iff_right (a := 2) one_lt_two).mp hlt
      exact this
    have hnext : nextLogBase2 (2 ^ k) = k := by
      rw [nextLogBase2_eq_clog hv hlt]
      exact Nat.clog_pow 2 k one_lt_two
    rw [hnext, Nat.shiftLeft_eq, one_mul,
      Nat.mod_eq_of_lt (Nat.pow_lt_pow_right one_lt_two hk), if_pos rfl]
    exact (Nat.log_pow one_lt_two k).symm
  · have h2 : 2 ≤ v := by
      rcases Nat.lt_or_ge v 2 with h | h
      · exfalso; exact hpow ⟨0, by omega⟩
      · exact h
    have hnext : nextLogBase2 v = Nat.clog 2 v := nextLogBase2_eq_clog hv hlt
    have hclog : Nat.clog 2 v = Nat.log 2 v + 1 := by
      rw [clog2_eq_log_pred h2, log2_pred_of_not_pow h2 hpow]
    have hcond : v ≠ (1 <<< nextLogBase2 v) % 2 ^ 32 := by
      rw [hnext, Nat.shiftLeft_eq, one_mul]
      intro hv'
      have hle32 : Nat.clog 2 v ≤ 32 := by
        rw [← Nat.le_pow_iff_clog_le one_lt_two]; omega
      rcases Nat.lt_or_ge (Nat.clog 2 v) 32 with h | h
      · rw [Nat.mod_eq_of_lt (Nat.pow_lt_pow_right one_lt_two h)] at hv'
        exact hpow ⟨Nat.clog 2 v, hv'⟩
      · have h32 : Nat.clog 2 v = 32 := by omega
        rw [h32] at hv'
        simp at hv'
        omega
    rw [if_neg hcond, hnext, hclog]
    omega

/-! ## Association-list lemmas -/

lemma tblLookup_eq_none_iff {E : List (Nat × Nat)} {k : Nat} :
    tblLookup E k = none ↔ k ∉ E.map Prod.fst := by
  induction E with
  | nil => simp [tblLookup]
  | cons e rest ih =>
    by_cases h : e.1 = k
    · simp [tblLookup, h]
    · have h' : ¬k = e.1 := fun hh => h hh.symm
      rw [List.map_cons, List.mem_cons]
      simp only [tblLookup, if_neg h, ih]
      tauto

lemma tblLookup_isSome_iff {E : List (Nat × Nat)} {k : Nat} :
    (tblLookup E k).isSome ↔ k ∈ E.map Prod.fst := by
  rcases h : tblLookup E k with _ | v
  · simpa using tblLookup_eq_none_iff.mp h
  · simp only [Option.isSome_some, true_iff]
    by_contra hk
    rw [tblLookup_eq_none_iff.mpr hk] at h
    exact Option.noConfusion h

lemma tblLookup_of_mem {E : List (Nat × Nat)} {k v : Nat}
    (hmem : (k, v) ∈ E) (hnd : (E.map Prod.fst).Nodup) :
    tblLookup E k = some v := by
  induction E with
  | nil => simp at hmem
  | cons e rest ih =>
    simp only [List.map_cons, List.nodup_cons] at hnd
    rcases List.mem_cons.mp hmem with h | h
    · simp [tblLookup, ← h]
    · have hne : e.1 ≠ k := by
        intro hk
        exact hnd.1 (hk ▸ List.mem_map_of_mem Prod.fst h)
      simp [tblLookup, hne, ih h hnd.2]

lemma tblInsert_of_not_mem {E : List (Nat × Nat)} {k v : Nat}
    (h : k ∉ E.map Prod.fst) : tblInsert E k v = E ++ [(k, v)] := by
  induction E with
  | nil => simp [tblInsert]
  | cons e rest ih =>
    simp only [List.map_cons, List.mem_cons, not_or] at h
    have h' : ¬e.1 = k := fun hh => h.1 hh.symm
    simp [tblInsert, h', ih h.2]

lemma tblInsert_ne_nil {E : List (Nat × Nat)} {k v : Nat} :
    tblInsert E k v ≠ [] := by
  cases E with
  | nil => simp [tblInsert]
  | cons e rest =>
    by_cases h : e.1 = k <;> simp [tblInsert, h]

lemma map_fst_tblInsert {E : List (Nat × Nat)} (k v : Nat) :
    (tblInsert E k v).map Prod.fst =
      if k ∈ E.map Prod.fst then E.map Prod.fst else E.map Prod.fst ++ [k] := by
  induction E with
  | nil => simp [tblInsert]
  | cons e rest ih =>
    by_cases h : e.1 = k
    · simp [tblInsert, h]
    · have : ¬k = e.1 := fun h' => h h'.symm
      by_cases hk : k ∈ rest.map Prod.fst <;>
        simp [tblInsert, h, this, hk, ih]

lemma nodup_tblInsert {E : List (Nat × Nat)} (k v : Nat)
    (hnd : (E.map Prod.fst).Nodup) : ((tblInsert E k v).map Prod.fst).Nodup := by
  rw [map_fst_tblInsert]
  by_cases h : k ∈ E.map Prod.fst
  · simpa [h] using hnd
  · simp only [h, if_false]
    exact List.Nodup.append hnd (List.nodup_singleton k) (by simpa using h)

lemma length_tblInsert {E : List (Nat × Nat)} (k v : Nat) :
    (tblInsert E k v).length =
      if (tblLookup E k).isSome then E.length else E.length + 1 := by
  induction E with
  | nil => simp [tblInsert, tblLookup]
  | cons e rest ih =>
    by_cases h : e.1 = k
    · simp [tblInsert, tblLookup, h]
    · simp only [tblInsert, tblLookup, if_neg h, List.length_cons, ih]
      by_cases hk : (tblLookup rest k).isSome <;> simp [hk]

lemma map_fst_tblErase {E : List (Nat × Nat)} (k : Nat) :
    (tblErase E k).map Prod.fst = (E.map Prod.fst).erase k := by
  induction E with
  | nil => simp [tblErase]
  | cons e rest ih =>
    by_cases h : e.1 = k
    · simp [tblErase, h, List.erase_cons_head]
    · rw [List.map_cons, List.erase_cons_tail]
      · simp [tblErase, h, ih]
      · simpa using h

lemma tblErase_sublist {E : List (Nat × Nat)} (k : Nat) :
    (tblErase E k).Sublist E := by
  induction E with
  | nil => simp [tblErase]
  | cons e rest ih =>
    by_cases h : e.1 = k
    · simp only [tblErase, if_pos h]
      exact List.sublist_cons_self e rest
    · simp only [tblErase, if_neg h]
      exact ih.cons₂ e

lemma nodup_tblErase {E : List (Nat × Nat)} (k : Nat)
    (hnd : (E.map Prod.fst).Nodup) : ((tblErase E k).map Prod.fst).Nodup :=
  hnd.sublist ((tblErase_sublist k).map Prod.fst)

lemma tblErase_of_not_mem {E : List (Nat × Nat)} {k : Nat}
    (h : k ∉ E.map Prod.fst) : tblErase E k = E := by
  induction E with
  | nil => simp [tblErase]
  | cons e rest ih =>
    simp only [List.map_cons, List.mem_cons, not_or] at h
    have h' : ¬e.1 = k := fun hh => h.1 hh.symm
    simp [tblErase, h', ih h.2]

lemma length_tblErase_of_mem {E : List (Nat × Nat)} {k : Nat}
    (h : k ∈ E.map Prod.fst) : (tblErase E k).length + 1 = E.length := by
  induction E with
  | nil => simp at h
  | cons e rest ih =>
    by_cases he : e.1 = k
    · simp [tblErase, he]
    · simp only [List.map_cons, List.mem_cons] at h
      rcases h with h | h
      · exact absurd h.symm he
      · simp [tblErase, he, ih h]

lemma tblLookup_tblInsert {E : List (Nat × Nat)} (k v q : Nat) :
    tblLookup (tblInsert E k v) q =
      if q = k then some v else tblLookup E q := by
  induction E with
  | nil =>
    simp only [tblInsert, tblLookup]
    by_cases h : q = k
    · simp [h]
    · have h' : ¬k = q := fun hh => h hh.symm
      simp [h, h']
  | cons e rest ih =>
    by_cases he : e.1 = k
    · subst he
      simp only [tblInsert, if_pos rfl]
      by_cases hq : q = e.1
      · simp [tblLookup, hq]
      · have h' : ¬e.1 = q := fun hh => hq hh.symm
        simp [tblLookup, hq, h']
    · simp only [tblInsert, if_neg he]
      by_cases hq : e.1 = q
      · have hqk : ¬q = k := fun hh => he (hq.trans hh)
        simp [tblLookup, hq, hqk]
      · simp [tblLookup, hq, ih]

lemma tblLookup_tblErase {E : List (Nat × Nat)} (k q : Nat)
    (hnd : (E.map Prod.fst).Nodup) :
    tblLookup (tblErase E k) q = if q = k then none else tblLookup E q := by
  induction E with
  | nil => simp [tblErase, tblLookup]
  | cons e rest ih =>
    simp only [List.map_cons, List.nodup_cons] at hnd
    by_cases he : e.1 = k
    · subst he
      simp only [tblErase, if_pos rfl]
      by_cases hq : q = e.1
      · subst hq
        rw [if_pos rfl]
        exact tblLookup_eq_none_iff.mpr hnd.1
      · have h' : ¬e.1 = q := fun hh => hq hh.symm
        simp [tblLookup, hq, h']
    · simp only [tblErase, if_neg he]
      by_cases hq : e.1 = q
      · have hqk : ¬q = k := fun hh => he (hq.trans hh)
        simp [tblLookup, hq, hqk]
      · simp [tblLookup, hq, ih hnd.2]

lemma tblCopyAll_of_disjoint {E D : List (Nat × Nat)}
    (hnd : (E.map Prod.fst).Nodup)
    (hdisj : ∀ x ∈ E.map Prod.fst, x ∉ D.map Prod.fst) :
    tblCopyAll E D = D ++ E := by
  induction E generalizing D with
  | nil => simp [tblCopyAll]
  | cons e rest ih =>
    simp only [List.map_cons, List.nodup_cons] at hnd
    have hfresh : e.1 ∉ D.map Prod.fst :=
      hdisj e.1 (by simp)
    have hstep : tblInsert D e.1 e.2 = D ++ [e] :=
      tblInsert_of_not_mem hfresh
    have hdisj' : ∀ x ∈ rest.map Prod.fst, x ∉ (D ++ [e]).map Prod.fst := by
      intro x hx
      rw [List.map_append, List.mem_append]
      push_neg
      constructor
      · exact hdisj x (by simp [hx])
      · simp only [List.map_cons, List.map_nil, List.mem_singleton]
        intro hx'
        exact hnd.1 (hx' ▸ hx)
    calc tblCopyAll (e :: rest) D
        = tblCopyAll rest (tblInsert D e.1 e.2) := rfl
      _ = tblCopyAll rest (D ++ [e]) := by rw [hstep]
      _ = (D ++ [e]) ++ rest := ih hnd.2 hdisj'
      _ = D ++ e :: rest := by simp

lemma tblCopyAll_nil {E : List (Nat × Nat)}
    (hnd : (E.map Prod.fst).Nodup) : tblCopyAll E [] = E := by
  simpa using tblCopyAll_of_disjoint hnd (by simp)

/-! ## Pool lemmas -/

lemma poolWF_pool0 : PoolWF pool0 := by
  intro i t h
  simp [pool0] at h

lemma mapPool.Put_empty (p : mapPool) {m : Table} (h : m.entries = []) :
    p.Put m = p := by
  simp [mapPool.Put, h]

lemma mapPool.Put_WF {p : mapPool} (hp : PoolWF p) (m : Table) :
    PoolWF (p.Put m) := by
  unfold mapPool.Put
  dsimp only
  split
  · exact hp
  · split
    · exact hp
    · intro i t ht
      simp only at ht
      by_cases hi : i = prevLogBase2 (m.entries.length % 2 ^ 32)
      · rw [if_pos hi] at ht
        rcases List.mem_cons.mp ht with h | h
        · rw [h]
        · exact hp i t h
      · rw [if_neg hi] at ht
        exact hp i t ht

lemma mapPool.Get_entries {p : mapPool} (hp : PoolWF p) (L : Nat) :
    ((p.Get L).1).entries = [] ∧ PoolWF (p.Get L).2 := by
  have key : ∀ X : Nat,
      ((if X > p.maxSize then ((⟨[], X⟩ : Table), p)
        else if nextLogBase2 (X % 2 ^ 32) ≥ maxMapPower then
          ((⟨[], X⟩ : Table), p)
        else match p.buckets (nextLogBase2 (X % 2 ^ 32)) with
          | t :: rest =>
            (t, { p with buckets := fun i =>
                if i = nextLogBase2 (X % 2 ^ 32) then rest else p.buckets i })
          | [] =>
            ((⟨[], 2 ^ nextLogBase2 (X % 2 ^ 32)⟩ : Table), p)).1.entries = [])
      ∧ PoolWF (if X > p.maxSize then ((⟨[], X⟩ : Table), p)
        else if nextLogBase2 (X % 2 ^ 32) ≥ maxMapPower then
          ((⟨[], X⟩ : Table), p)
        else match p.buckets (nextLogBase2 (X % 2 ^ 32)) with
          | t :: rest =>
            (t, { p with buckets := fun i =>
                if i = nextLogBase2 (X % 2 ^ 32) then rest else p.buckets i })
          | [] =>
            ((⟨[], 2 ^ nextLogBase2 (X % 2 ^ 32)⟩ : Table), p)).2 := by
    intro X
    split
    · exact ⟨rfl, hp⟩
    · split
      · exact ⟨rfl, hp⟩
      · split
        case _ t rest heq =>
          refine ⟨hp _ t (by rw [heq]; exact List.mem_cons_self t rest), ?_⟩
          intro i t' ht'
          simp only at ht'
          split at ht'
          case _ hi =>
            refine hp (nextLogBase2 (X % 2 ^ 32)) t' ?_
            rw [heq]
            exact List.mem_cons_of_mem t ht'
          case _ => exact hp i t' ht'
        case _ => exact ⟨rfl, hp⟩
  exact key (if L = 0 then p.defaultSize else L)

/-! ## Shard engine lemmas -/

lemma mapShard.Get_eq (s : mapShard) (k : Nat) :
    s.Get k = tblLookup (tblOf s) k := by
  cases h : s.entries <;> simp [mapShard.Get, tblOf, h, tblLookup]

lemma shardInv_shard0 : ShardInv shard0 := by
  refine ⟨⟨?_, ?_, ?_, ?_⟩, ?_⟩ <;> simp [shard0, tblOf, WeakInv]

lemma weakInv_entries_some {s : mapShard} (hs : WeakInv s)
    (hc : s.count ≠ 0) : ∃ t, s.entries = some t ∧ t.entries ≠ [] := by
  rcases h : s.entries with _ | t
  · exfalso
    apply hc
    have := hs.2.1
    rw [show tblOf s = [] from by simp [tblOf, h]] at this
    simpa using this
  · refine ⟨t, rfl, ?_⟩
    intro hnil
    apply hc
    have := hs.2.1
    rw [show tblOf s = t.entries from by simp [tblOf, h], hnil] at this
    simpa using this

lemma shardInv_of_weak {s : mapShard} (hs : WeakInv s) (hc : s.count ≠ 0) :
    ShardInv s := by
  obtain ⟨t, ht, hne⟩ := weakInv_entries_some hs hc
  exact ⟨hs, fun t' ht' => by rw [ht] at ht'; cases ht'; exact hne⟩

lemma mapShard.Compact_spec {s : mapShard} {p : mapPool}
    (hs : WeakInv s) (hp : PoolWF p) :
    tblOf (s.Compact p).1 = tblOf s ∧ ShardInv (s.Compact p).1 ∧
    PoolWF (s.Compact p).2 ∧ (s.Compact p).1.count = s.count ∧
    (s.count = 0 → s.Compact p = (⟨none, 0, 0⟩, p)) := by
  unfold mapShard.Compact
  by_cases hc : s.count = 0
  · have hnil : tblOf s = [] := by
      have := hs.2.1
      rw [hc] at this
      have hl : (tblOf s).length = 0 := by exact_mod_cast this.symm
      exact List.length_eq_zero.mp hl
    rw [if_pos hc]
    rcases h : s.entries with _ | t
    · dsimp only
      exact ⟨by simp [tblOf, h], shardInv_shard0, hp,
        by simp [tblOf, hc], fun _ => rfl⟩
    · have hte : t.entries = [] := by
        rw [show tblOf s = t.entries from by simp [tblOf, h]] at hnil
        exact hnil
      dsimp only
      rw [mapPool.Put_empty p hte]
      exact ⟨by simp [tblOf, h, hte], shardInv_shard0, hp,
        by simp [tblOf, hc], fun _ => rfl⟩
  · rw [if_neg hc]
    by_cases hmax : s.count > (maxMapSize : Int)
    · rw [if_pos hmax]
      exact ⟨rfl, shardInv_of_weak hs hc, hp, rfl, fun h0 => absurd h0 hc⟩
    · rw [if_neg hmax]
      by_cases hshrink : s.count * mapShrinkFactor ≥ s.countHigh
      · rw [if_pos hshrink]
        exact ⟨rfl, shardInv_of_weak hs hc, hp, rfl, fun h0 => absurd h0 hc⟩
      · rw [if_neg hshrink]
        obtain ⟨t, ht, htne⟩ := weakInv_entries_some hs hc
        have htbl : tblOf s = t.entries := by simp [tblOf, ht]
        have hnd : (t.entries.map Prod.fst).Nodup := by
          have := hs.1
          rwa [htbl] at this
        obtain ⟨hget1, hget2⟩ :=
          mapPool.Get_entries hp ((s.count % 2 ^ 32).toNat * 2 % 2 ^ 32)
        rw [ht]
        dsimp only
        rw [hget1, tblCopyAll_nil hnd]
        have hcount : s.count = (t.entries.length : Int) := by
          rw [hs.2.1, htbl]
        refine ⟨by simp [tblOf, ht], ?_, mapPool.Put_WF hget2 t,
          by simp [hcount], fun h0 => absurd h0 hc⟩
        refine ⟨⟨by simpa [tblOf] using hnd, by simp [tblOf], le_refl _,
          by simp⟩, ?_⟩
        intro t' ht'
        cases ht'
        exact htne

lemma mapShard.Set_spec {s : mapShard} {p : mapPool} (k v : Nat)
    (hs : ShardInv s) (hp : PoolWF p) :
    tblOf (s.Set p k v).1 = tblInsert (tblOf s) k v ∧
    ShardInv (s.Set p k v).1 ∧ PoolWF (s.Set p k v).2 := by
  obtain ⟨⟨hnd, hcnt, hle, hnone⟩, hsome⟩ := hs
  unfold mapShard.Set
  rcases h : s.entries with _ | t
  · dsimp only
    have htbl : tblOf s = [] := by simp [tblOf, h]
    obtain ⟨hget1, hget2⟩ := mapPool.Get_entries hp defaultMapSize
    have hcnt0 : s.count = 0 := by
      rw [hcnt, htbl]; simp
    rw [hget1, htbl]
    refine ⟨by simp [tblOf], ?_, hget2⟩
    constructor
    · refine ⟨?_, ?_, ?_, by simp⟩
      · simpa [tblOf] using nodup_tblInsert (E := []) k v (by simp)
      · simp [tblOf, tblLookup, tblInsert, hcnt0]
      · simp only [tblLookup, Option.isSome_none, Bool.false_eq_true, if_false]
        split <;> omega
    · intro t' ht'
      cases ht'
      exact tblInsert_ne_nil
  · dsimp only
    have htbl : tblOf s = t.entries := by simp [tblOf, h]
    rw [htbl]
    refine ⟨by simp [tblOf], ?_, hp⟩
    constructor
    · refine ⟨?_, ?_, ?_, by simp⟩
      · simpa [tblOf] using nodup_tblInsert (E := t.entries) k v (htbl ▸ hnd)
      · simp only [tblOf]
        rw [length_tblInsert]
        rw [htbl] at hcnt
        split
        case _ hlk => simp [hlk, hcnt]
        case _ hlk => simp [hlk, hcnt]
      · simp only
        split <;> omega
    · intro t' ht'
      cases ht'
      exact tblInsert_ne_nil

lemma mapShard.Delete_spec {s : mapShard} {p : mapPool} (k : Nat)
    (hs : ShardInv s) (hp : PoolWF p) :
    tblOf (s.Delete p k).1 = tblErase (tblOf s) k ∧
    ShardInv (s.Delete p k).1 ∧ PoolWF (s.Delete p k).2 := by
  obtain ⟨⟨hnd, hcnt, hle, hnone⟩, hsome⟩ := hs
  unfold mapShard.Delete
  rcases h : s.entries with _ | t
  · have htbl : tblOf s = [] := by simp [tblOf, h]
    dsimp only
    rw [htbl]
    exact ⟨by simp [tblErase], ⟨⟨hnd, hcnt, hle, hnone⟩, hsome⟩, hp⟩
  · dsimp only
    have htbl : tblOf s = t.entries := by simp [tblOf, h]
    by_cases hlk : (tblLookup t.entries k).isSome
    · rw [if_pos hlk]
      have hmem : k ∈ t.entries.map Prod.fst := tblLookup_isSome_iff.mp hlk
      have hlen : (tblErase t.entries k).length + 1 = t.entries.length :=
        length_tblErase_of_mem hmem
      have hweak : WeakInv ⟨some ⟨tblErase t.entries k, t.cap⟩,
          s.count - 1, s.countHigh⟩ := by
        refine ⟨?_, ?_, ?_, by simp⟩
        · simpa [tblOf] using nodup_tblErase k (htbl ▸ hnd)
        · simp only [tblOf]
          rw [htbl] at hcnt
          omega
        · simp only
          omega
      obtain ⟨h1, h2, h3, _, _⟩ := mapShard.Compact_spec hweak hp
      refine ⟨?_, h2, h3⟩
      rw [h1]
      simp [tblOf, h]
    · rw [if_neg hlk]
      have hnmem : k ∉ t.entries.map Prod.fst := by
        intro hmem
        exact hlk (tblLookup_isSome_iff.mpr hmem)
      rw [htbl, tblErase_of_not_mem hnmem]
      exact ⟨rfl, ⟨⟨hnd, hcnt, hle, hnone⟩, hsome⟩, hp⟩

/-! ## History invariants -/

lemma shardOp_step {sp : mapShard × mapPool} {A : List Nat} (op : ShardOp)
    (h1 : ShardInv sp.1) (h2 : PoolWF sp.2)
    (h3 : (tblOf sp.1).map Prod.fst = A) :
    ShardInv (ShardOp.apply sp op).1 ∧ PoolWF (ShardOp.apply sp op).2 ∧
    (tblOf (ShardOp.apply sp op).1).map Prod.fst = ShardOp.applyKeys A op := by
  cases op with
  | set k v =>
    obtain ⟨ht, hinv, hpw⟩ := mapShard.Set_spec k v h1 h2
    refine ⟨hinv, hpw, ?_⟩
    show (tblOf (sp.1.Set sp.2 k v).1).map Prod.fst = _
    rw [ht, map_fst_tblInsert, h3]
    rfl
  | del k =>
    obtain ⟨ht, hinv, hpw⟩ := mapShard.Delete_spec k h1 h2
    refine ⟨hinv, hpw, ?_⟩
    show (tblOf (sp.1.Delete sp.2 k).1).map Prod.fst = _
    rw [ht, map_fst_tblErase, h3]
    rfl
  | compact =>
    obtain ⟨ht, hinv, hpw, _, _⟩ := mapShard.Compact_spec h1.1 h2
    refine ⟨hinv, hpw, ?_⟩
    show (tblOf (sp.1.Compact sp.2).1).map Prod.fst = A
    rw [ht, h3]

lemma foldl_ops_inv (ops : List ShardOp) :
    ∀ (sp : mapShard × mapPool) (A : List Nat), ShardInv sp.1 → PoolWF sp.2 →
    (tblOf sp.1).map Prod.fst = A →
    ShardInv (ops.foldl ShardOp.apply sp).1 ∧
    PoolWF (ops.foldl ShardOp.apply sp).2 ∧
    (tblOf (ops.foldl ShardOp.apply sp).1).map Prod.fst =
      ops.foldl ShardOp.applyKeys A := by
  induction ops with
  | nil =>
    intro sp A h1 h2 h3
    simpa using ⟨h1, h2, h3⟩
  | cons op rest ih =>
    intro sp A h1 h2 h3
    simp only [List.foldl_cons]
    obtain ⟨g1, g2, g3⟩ := shardOp_step op h1 h2 h3
    exact ih _ _ g1 g2 g3

lemma runShardOps_inv (ops : List ShardOp) :
    ShardInv (runShardOps ops).1 ∧ PoolWF (runShardOps ops).2 ∧
    (tblOf (runShardOps ops).1).map Prod.fst = liveKeys ops :=
  foldl_ops_inv ops (shard0, pool0) [] shardInv_shard0 poolWF_pool0
    (by simp [tblOf, shard0])

lemma mapShard.Delete_drain {s : mapShard} {p : mapPool} {k : Nat}
    (hs : ShardInv s) (hp : PoolWF p) (h1 : s.count = 1)
    (hk : s.Get k ≠ none) : s.Delete p k = (⟨none, 0, 0⟩, p) := by
  obtain ⟨⟨hnd, hcnt, hle, hnone⟩, hsome⟩ := hs
  rcases h : s.entries with _ | t
  · exfalso
    apply hk
    rw [mapShard.Get_eq, show tblOf s = [] from by simp [tblOf, h]]
    rfl
  · have htbl : tblOf s = t.entries := by simp [tblOf, h]
    have hlk : (tblLookup t.entries k).isSome := by
      rw [mapShard.Get_eq, htbl] at hk
      exact Option.ne_none_iff_isSome.mp hk
    have hmem : k ∈ t.entries.map Prod.fst := tblLookup_isSome_iff.mp hlk
    have hlenE : t.entries.length = 1 := by
      rw [htbl] at hcnt
      omega
    have hE : tblErase t.entries k = [] := by
      have := length_tblErase_of_mem hmem
      exact List.length_eq_zero.mp (by omega)
    unfold mapShard.Delete
    rw [h]
    dsimp only
    rw [if_pos hlk, hE]
    unfold mapShard.Compact
    rw [if_pos (show s.count - 1 = 0 by omega)]
    dsimp only
    rw [mapPool.Put_empty p rfl]

/-! ## Key-range lemmas -/

lemma pairList_succ (a n : Nat) :
    pairList a (n + 1) = (a, a) :: pairList (a + 1) n := rfl

lemma keyList_succ (a n : Nat) : keyList a (n + 1) = a :: keyList (a + 1) n := rfl

lemma length_pairList (a n : Nat) : (pairList a n).length = n := by
  induction n generalizing a with
  | zero => rfl
  | succ n ih => simp [pairList_succ, ih]

lemma mem_pairList {e : Nat × Nat} {a n : Nat} :
    e ∈ pairList a n ↔ a ≤ e.1 ∧ e.1 < a + n ∧ e.2 = e.1 := by
  induction n generalizing a with
  | zero =>
    simp only [pairList, List.not_mem_nil, false_iff]
    omega
  | succ n ih =>
    rw [pairList_succ]
    simp only [List.mem_cons, ih]
    constructor
    · rintro (h | h)
      · rw [h]
        exact ⟨le_refl a, by show a < a + (n + 1); omega, rfl⟩
      · omega
    · intro h
      rcases Nat.eq_or_lt_of_le h.1 with he | he
      · left
        have h1 : e.1 = a := he.symm
        have h2 : e.2 = a := by rw [h.2.2, h1]
        rw [Prod.ext_iff]
        exact ⟨h1, h2⟩
      · right; omega

lemma map_fst_pairList (a n : Nat) :
    (pairList a n).map Prod.fst = keyList a n := by
  induction n generalizing a with
  | zero => rfl
  | succ n ih => simp [pairList_succ, keyList_succ, ih]

lemma mem_keyList {k a n : Nat} : k ∈ keyList a n ↔ a ≤ k ∧ k < a + n := by
  induction n generalizing a with
  | zero => simp [keyList]
  | succ n ih =>
    rw [keyList_succ]
    simp only [List.mem_cons, ih]
    omega

lemma nodup_keyList (a n : Nat) : (keyList a n).Nodup := by
  induction n generalizing a with
  | zero => exact List.nodup_nil
  | succ n ih =>
    rw [keyList_succ, List.nodup_cons]
    exact ⟨fun h => by have := mem_keyList.mp h; omega, ih (a + 1)⟩

lemma nodup_map_fst_pairList (a n : Nat) :
    ((pairList a n).map Prod.fst).Nodup := by
  rw [map_fst_pairList]; exact nodup_keyList a n

lemma tblLookup_pairList_ge {a n k : Nat} (h : a + n ≤ k) :
    tblLookup (pairList a n) k = none := by
  rw [tblLookup_eq_none_iff, map_fst_pairList, mem_keyList]
  omega

lemma pairList_append_last (a n : Nat) :
    pairList a n ++ [(a + n, a + n)] = pairList a (n + 1) := by
  induction n generalizing a with
  | zero => simp [pairList]
  | succ n ih =>
    rw [pairList_succ, pairList_succ a (n + 1), List.cons_append,
      show a + (n + 1) = (a + 1) + n from by omega, ih]

/-! ## C1 scenario lemmas (sharded-backend shrink trace) -/

lemma mapShard.Compact_shrink {s : mapShard} {p : mapPool} {t : Table}
    (ht : s.entries = some t) (hnd : (t.entries.map Prod.fst).Nodup)
    (hcnt : s.count = (t.entries.length : Int)) (hc : s.count ≠ 0)
    (hmax : ¬s.count > (maxMapSize : Int))
    (hsh : ¬s.count * mapShrinkFactor ≥ s.countHigh) (hp : PoolWF p) :
    s.Compact p =
      (⟨some ⟨t.entries,
          ((p.Get (((s.count % 2 ^ 32).toNat * 2) % 2 ^ 32)).1).cap⟩,
        (t.entries.length : Int), (t.entries.length : Int)⟩,
       ((p.Get (((s.count % 2 ^ 32).toNat * 2) % 2 ^ 32)).2).Put t) := by
  unfold mapShard.Compact
  rw [if_neg hc, if_neg hmax, if_neg hsh, ht]
  dsimp only
  rw [(mapPool.Get_entries hp _).1, tblCopyAll_nil hnd]

lemma shardSt_set_next (n c : Nat) (p : mapPool) :
    mapShard.Set (shardSt 0 n c (n : Int)) p n n =
      (shardSt 0 (n + 1) c ((n + 1 : Nat) : Int), p) := by
  unfold mapShard.Set shardSt
  dsimp only
  have hlk : tblLookup (pairList 0 n) n = none :=
    tblLookup_pairList_ge (by omega)
  rw [hlk]
  have hins : tblInsert (pairList 0 n) n n = pairList 0 (n + 1) := by
    rw [tblInsert_of_not_mem (tblLookup_eq_none_iff.mp hlk)]
    have := pairList_append_last 0 n
    simpa using this
  simp only [Option.isSome_none, Bool.false_eq_true, if_false, hins]
  rw [if_pos (by omega : (n : Int) + 1 > (n : Int))]
  push_cast
  rfl

lemma shardSetList_append (sp : mapShard × mapPool)
    (l1 l2 : List (Nat × Nat)) :
    shardSetList sp (l1 ++ l2) = shardSetList (shardSetList sp l1) l2 := by
  simp [shardSetList, List.foldl_append]

lemma shardDeleteList_append (sp : mapShard × mapPool) (l1 l2 : List Nat) :
    shardDeleteList sp (l1 ++ l2) =
      shardDeleteList (shardDeleteList sp l1) l2 := by
  simp [shardDeleteList, List.foldl_append]

lemma shardDeleteList_cons (s : mapShard) (p : mapPool) (k : Nat)
    (ks : List Nat) :
    shardDeleteList (s, p) (k :: ks) = shardDeleteList (s.Delete p k) ks := rfl

lemma shard_fill : ∀ n : Nat, 1 ≤ n →
    shardSetList (shard0, pool0) (pairList 0 n) =
      (shardSt 0 n 32 (n : Int), pool0) := by
  intro n hn
  induction n with
  | zero => omega
  | succ n ih =>
    rcases Nat.eq_or_lt_of_le hn with h1 | h2
    · rw [← h1]
      rfl
    · have hn' : 1 ≤ n := by omega
      rw [← pairList_append_last 0 n, shardSetList_append, ih hn']
      show mapShard.Set (shardSt 0 n 32 (n : Int)) pool0 (0 + n) (0 + n) =
        (shardSt 0 (n + 1) 32 ((n + 1 : Nat) : Int), pool0)
      rw [Nat.zero_add]
      exact shardSt_set_next n 32 pool0

lemma shardSt_delete_head {a n c : Nat} {H : Int} (p : mapPool)
    (h2 : 2 ≤ n) (hmax : (n : Int) - 1 ≤ (maxMapSize : Int))
    (hsh : ((n : Int) - 1) * 8 ≥ H) :
    mapShard.Delete (shardSt a n c H) p a = (shardSt (a + 1) (n - 1) c H, p) := by
  obtain ⟨m, rfl⟩ : ∃ m, n = m + 1 := ⟨n - 1, by omega⟩
  unfold mapShard.Delete shardSt
  dsimp only
  rw [pairList_succ]
  have hlk : (tblLookup ((a, a) :: pairList (a + 1) m) a).isSome := by
    simp [tblLookup]
  rw [if_pos hlk]
  have herase : tblErase ((a, a) :: pairList (a + 1) m) a =
      pairList (a + 1) m := by
    simp [tblErase]
  rw [herase]
  unfold mapShard.Compact
  dsimp only
  rw [if_neg (show ¬((m + 1 : Nat) : Int) - 1 = 0 from by push_cast; omega),
    if_neg (show ¬((m + 1 : Nat) : Int) - 1 > (maxMapSize : Int) from by omega),
    if_pos (show (((m + 1 : Nat) : Int) - 1) * mapShrinkFactor ≥ H from by
      rw [show mapShrinkFactor = (8 : Int) from rfl]; push_cast at hsh ⊢; omega)]
  simp only [Nat.add_sub_cancel]
  rw [show ((m + 1 : Nat) : Int) - 1 = (m : Int) from by push_cast; ring]

lemma keyList_append (a m k : Nat) :
    keyList a (m + k) = keyList a m ++ keyList (a + m) k := by
  induction m generalizing a with
  | zero => simp [keyList]
  | succ m ih =>
    have h1 : m + 1 + k = (m + k) + 1 := by omega
    rw [h1, keyList_succ, ih (a + 1), keyList_succ, List.cons_append,
      show a + 1 + m = a + (m + 1) from by omega]

lemma shardSt_delete_range : ∀ (j a n c : Nat) (H : Int) (p : mapPool),
    j < n → (n : Int) - 1 ≤ (maxMapSize : Int) →
    ((n : Int) - (j : Int)) * 8 ≥ H →
    shardDeleteList (shardSt a n c H, p) (keyList a j) =
      (shardSt (a + j) (n - j) c H, p) := by
  intro j
  induction j with
  | zero =>
    intro a n c H p h1 h2 h3
    simp [shardDeleteList, keyList]
  | succ j ih =>
    intro a n c H p h1 h2 h3
    rw [keyList_succ]
    have hstep := shardSt_delete_head (a := a) (n := n) (c := c) (H := H) p
      (by omega) h2 (by omega)
    show shardDeleteList (mapShard.Delete (shardSt a n c H) p a)
      (keyList (a + 1) j) = _
    rw [hstep]
    have hrec := ih (a + 1) (n - 1) c H p (by omega) (by omega) (by omega)
    rw [hrec, show a + 1 + j = a + (j + 1) from by omega,
      show n - 1 - j = n - (j + 1) from by omega]

lemma c1_shrink_step :
    mapShard.Delete (shardSt 875 125 32 ((1000 : Nat) : Int)) pool0 875 =
      (shardSt 876 124 256 ((124 : Nat) : Int), c1Pool) := by
  unfold mapShard.Delete shardSt
  dsimp only
  rw [show (125 : Nat) = 124 + 1 from rfl, pairList_succ]
  rw [if_pos (show (tblLookup ((875, 875) :: pairList 876 124) 875).isSome
    from by simp [tblLookup])]
  rw [show tblErase ((875, 875) :: pairList 876 124) 875 = pairList 876 124
    from by simp [tblErase]]
  rw [mapShard.Compact_shrink (t := ⟨pairList 876 124, 32⟩) rfl
    (nodup_map_fst_pairList 876 124)
    (by rw [length_pairList]; norm_num)
    (by norm_num)
    (by norm_num [maxMapSize, maxMapPower])
    (by rw [show mapShrinkFactor = (8 : Int) from rfl]; norm_num)
    poolWF_pool0]
  dsimp only
  rw [length_pairList]
  norm_num
  rw [show Int.toNat 124 * 2 % 4294967296 = 248 from by decide]
  rw [show pool0.Get 248 = ((⟨[], 256⟩ : Table), pool0) from rfl]
  exact ⟨rfl, rfl⟩

lemma mapShard.Compact_noop {s : mapShard} (p : mapPool) (hc : s.count ≠ 0)
    (hmax : ¬s.count > (maxMapSize : Int))
    (hsh : s.count * mapShrinkFactor ≥ s.countHigh) :
    s.Compact p = (s, p) := by
  unfold mapShard.Compact
  rw [if_neg hc, if_neg hmax, if_pos hsh]

lemma c1_trace : c1Run = (shardSt 900 100 256 ((124 : Nat) : Int), c1Pool) := by
  unfold c1Run
  rw [shard_fill 1000 (by norm_num)]
  rw [show (900 : Nat) = 875 + (1 + 24) from by norm_num, keyList_append,
    shardDeleteList_append]
  rw [shardSt_delete_range 875 0 1000 32 ((1000 : Nat) : Int) pool0
    (by norm_num) (by norm_num [maxMapSize, maxMapPower]) (by norm_num)]
  rw [show (0 + 875 : Nat) = 875 from by norm_num,
    show (1000 - 875 : Nat) = 125 from by norm_num]
  rw [show (1 + 24 : Nat) = 24 + 1 from by norm_num, keyList_succ,
    shardDeleteList_cons, c1_shrink_step]
  rw [show (875 + 1 : Nat) = 876 from by norm_num]
  rw [shardSt_delete_range 24 876 124 256 ((124 : Nat) : Int) c1Pool
    (by norm_num) (by norm_num [maxMapSize, maxMapPower]) (by norm_num)]

/-! ## C5 scenario lemmas (baseline-backend shrink trace) -/

lemma simpleSetList_append (m : simpleMap) (l1 l2 : List (Nat × Nat)) :
    simpleSetList m (l1 ++ l2) = simpleSetList (simpleSetList m l1) l2 := by
  simp [simpleSetList, List.foldl_append]

lemma simpleDeleteList_append (m : simpleMap) (l1 l2 : List Nat) :
    simpleDeleteList m (l1 ++ l2) =
      simpleDeleteList (simpleDeleteList m l1) l2 := by
  simp [simpleDeleteList, List.foldl_append]

lemma simpleDeleteList_cons (m : simpleMap) (k : Nat) (ks : List Nat) :
    simpleDeleteList m (k :: ks) = simpleDeleteList (m.Delete k) ks := rfl

lemma simpleMap.Compact_noop_baseline {m : simpleMap} (hc : m.count ≠ 0)
    (hsh : m.count * 100 ≥ m.countHigh) : m.Compact = m := by
  unfold simpleMap.Compact
  rw [if_neg hc, if_pos hsh]

lemma simpleMap.Compact_shrink_baseline {m : simpleMap} {t : Table}
    (ht : m.entries = some t) (hnd : (t.entries.map Prod.fst).Nodup)
    (hc : m.count ≠ 0) (hsh : ¬m.count * 100 ≥ m.countHigh) :
    m.Compact = ⟨some ⟨t.entries, (m.count * 2).toNat⟩,
      (t.entries.length : Int), (t.entries.length : Int)⟩ := by
  unfold simpleMap.Compact
  rw [if_neg hc, if_neg hsh, ht]
  dsimp only
  rw [tblCopyAll_nil hnd]

lemma simpleSt_set_next (n c : Nat) :
    simpleMap.Set (simpleSt 0 n c (n : Int)) n n =
      simpleSt 0 (n + 1) c ((n + 1 : Nat) : Int) := by
  unfold simpleMap.Set simpleSt
  dsimp only
  have hlk : tblLookup (pairList 0 n) n = none :=
    tblLookup_pairList_ge (by omega)
  rw [hlk]
  have hins : tblInsert (pairList 0 n) n n = pairList 0 (n + 1) := by
    rw [tblInsert_of_not_mem (tblLookup_eq_none_iff.mp hlk)]
    have := pairList_append_last 0 n
    simpa using this
  simp only [Option.isSome_none, Bool.false_eq_true, if_false, hins]
  rw [if_pos (by omega : (n : Int) + 1 > (n : Int))]
  push_cast
  rfl

lemma simple_fill : ∀ n : Nat, 1 ≤ n →
    simpleSetList simpleMap.Init (pairList 0 n) =
      simpleSt 0 n 32 (n : Int) := by
  intro n hn
  induction n with
  | zero => omega
  | succ n ih =>
    rcases Nat.eq_or_lt_of_le hn with h1 | h2
    · rw [← h1]
      rfl
    · have hn' : 1 ≤ n := by omega
      rw [← pairList_append_last 0 n, simpleSetList_append, ih hn']
      show simpleMap.Set (simpleSt 0 n 32 (n : Int)) (0 + n) (0 + n) =
        simpleSt 0 (n + 1) 32 ((n + 1 : Nat) : Int)
      rw [Nat.zero_add]
      exact simpleSt_set_next n 32

lemma simpleSt_delete_head {a n c : Nat} {H : Int} (h2 : 2 ≤ n)
    (hsh : ((n : Int) - 1) * 100 ≥ H) :
    simpleMap.Delete (simpleSt a n c H) a = simpleSt (a + 1) (n - 1) c H := by
  obtain ⟨m, rfl⟩ : ∃ m, n = m + 1 := ⟨n - 1, by omega⟩
  unfold simpleMap.Delete simpleSt
  dsimp only
  rw [pairList_succ]
  have hlk : (tblLookup ((a, a) :: pairList (a + 1) m) a).isSome := by
    simp [tblLookup]
  rw [if_pos hlk]
  rw [show tblErase ((a, a) :: pairList (a + 1) m) a = pairList (a + 1) m
    from by simp [tblErase]]
  rw [simpleMap.Compact_noop_baseline (m := ⟨some ⟨pairList (a + 1) m, c⟩,
      ((m + 1 : Nat) : Int) - 1, H⟩)
    (by show ¬((m + 1 : Nat) : Int) - 1 = 0; push_cast; omega)
    (by show (((m + 1 : Nat) : Int) - 1) * 100 ≥ H; push_cast at hsh ⊢; omega)]
  simp only [Nat.add_sub_cancel]
  rw [show ((m + 1 : Nat) : Int) - 1 = (m : Int) from by push_cast; ring]

lemma simpleSt_delete_range : ∀ (j a n c : Nat) (H : Int),
    j < n → ((n : Int) - (j : Int)) * 100 ≥ H →
    simpleDeleteList (simpleSt a n c H) (keyList a j) =
      simpleSt (a + j) (n - j) c H := by
  intro j
  induction j with
  | zero =>
    intro a n c H h1 h3
    simp [simpleDeleteList, keyList]
  | succ j ih =>
    intro a n c H h1 h3
    rw [keyList_succ, simpleDeleteList_cons,
      simpleSt_delete_head (by omega) (by omega)]
    have hrec := ih (a + 1) (n - 1) c H (by omega) (by omega)
    rw [hrec, show a + 1 + j = a + (j + 1) from by omega,
      show n - 1 - j = n - (j + 1) from by omega]

lemma c5_shrink_step :
    simpleMap.Delete (simpleSt 990 10 32 ((1000 : Nat) : Int)) 990 =
      simpleSt 991 9 18 ((9 : Nat) : Int) := by
  unfold simpleMap.Delete simpleSt
  dsimp only
  rw [show (10 : Nat) = 9 + 1 from rfl, pairList_succ]
  rw [if_pos (show (tblLookup ((990, 990) :: pairList 991 9) 990).isSome
    from by simp [tblLookup])]
  rw [show tblErase ((990, 990) :: pairList 991 9) 990 = pairList 991 9
    from by simp [tblErase]]
  rw [simpleMap.Compact_shrink_baseline (t := ⟨pairList 991 9, 32⟩) rfl
    (nodup_map_fst_pairList 991 9)
    (by norm_num)
    (by norm_num)]
  rw [length_pairList]
  norm_num
  decide

lemma c5_trace100 : c5Run100 = simpleSt 900 100 32 ((1000 : Nat) : Int) := by
  unfold c5Run100
  rw [simple_fill 1000 (by norm_num)]
  rw [simpleSt_delete_range 900 0 1000 32 ((1000 : Nat) : Int)
    (by norm_num) (by norm_num)]

lemma c5_trace : c5Run = simpleSt 995 5 18 ((9 : Nat) : Int) := by
  unfold c5Run
  rw [simple_fill 1000 (by norm_num)]
  rw [show (995 : Nat) = 990 + (1 + 4) from by norm_num, keyList_append,
    simpleDeleteList_append]
  rw [simpleSt_delete_range 990 0 1000 32 ((1000 : Nat) : Int)
    (by norm_num) (by norm_num)]
  rw [show (0 + 990 : Nat) = 990 from by norm_num,
    show (1000 - 990 : Nat) = 10 from by norm_num]
  rw [show (1 + 4 : Nat) = 4 + 1 from by norm_num, keyList_succ,
    simpleDeleteList_cons, c5_shrink_step]
  rw [show (990 + 1 : Nat) = 991 from by norm_num]
  rw [simpleSt_delete_range 4 991 9 18 ((9 : Nat) : Int)
    (by norm_num) (by norm_num)]

/-! ## Sharded-map lemmas -/

lemma getMapShardKey_eq_mod (id : Nat) : getMapShardKey id = id % mapShards := by
  show id &&& (mapShards - 1) = id % mapShards
  have h := Nat.and_pow_two_sub_one_eq_mod id 5
  simpa [mapShards] using h

lemma shardedMap.Set_def (m : shardedMap) (id v : Nat) :
    m.Set id v = ⟨Function.update m.shards (shardIdx id)
        ((m.shards (shardIdx id)).Set m.pool id v).1,
      ((m.shards (shardIdx id)).Set m.pool id v).2⟩ := rfl

lemma shardedMap.Delete_def (m : shardedMap) (id : Nat) :
    m.Delete id = ⟨Function.update m.shards (shardIdx id)
        ((m.shards (shardIdx id)).Delete m.pool id).1,
      ((m.shards (shardIdx id)).Delete m.pool id).2⟩ := rfl

lemma mapSetList_cons (m : shardedMap) (e : Nat × Nat)
    (kvs : List (Nat × Nat)) :
    mapSetList m (e :: kvs) = mapSetList (m.Set e.1 e.2) kvs := rfl

lemma mapDeleteList_cons (m : shardedMap) (k : Nat) (ks : List Nat) :
    mapDeleteList m (k :: ks) = mapDeleteList (m.Delete k) ks := rfl

lemma fiber_nil (i : Fin mapShards) : fiber i [] = [] := rfl

lemma fiber_append (i : Fin mapShards) (l1 l2 : List (Nat × Nat)) :
    fiber i (l1 ++ l2) = fiber i l1 ++ fiber i l2 := by
  simp [fiber]

lemma fiber_cons_same {e : Nat × Nat} {i : Fin mapShards}
    (h : shardIdx e.1 = i) (l : List (Nat × Nat)) :
    fiber i (e :: l) = e :: fiber i l := by
  simp [fiber, List.filter_cons, h]

lemma fiber_cons_other {e : Nat × Nat} {i : Fin mapShards}
    (h : shardIdx e.1 ≠ i) (l : List (Nat × Nat)) :
    fiber i (e :: l) = fiber i l := by
  simp [fiber, List.filter_cons, h]

lemma map_fst_fiber_sublist (i : Fin mapShards) (l : List (Nat × Nat)) :
    ((fiber i l).map Prod.fst).Sublist (l.map Prod.fst) :=
  (List.filter_sublist l).map Prod.fst

lemma mapInv_init : MapInv shardedMap.Init [] := by
  constructor
  · intro i
    exact ⟨by simp [tblOf, shardedMap.Init, shard0, fiber_nil],
      shardInv_shard0⟩
  · exact poolWF_pool0

lemma mapInv_set {m : shardedMap} {l : List (Nat × Nat)} {k v : Nat}
    (hinv : MapInv m l) (hfresh : k ∉ l.map Prod.fst) :
    MapInv (m.Set k v) (l ++ [(k, v)]) := by
  obtain ⟨hsh, hpw⟩ := hinv
  obtain ⟨ht, hinvj⟩ := hsh (shardIdx k)
  have hk_not : k ∉ (tblOf (m.shards (shardIdx k))).map Prod.fst := by
    rw [ht]
    intro hmem
    exact hfresh ((map_fst_fiber_sublist (shardIdx k) l).mem hmem)
  obtain ⟨hins, hinv', hpw'⟩ := mapShard.Set_spec k v hinvj hpw
  rw [shardedMap.Set_def]
  constructor
  · intro i
    dsimp only
    by_cases hij : i = shardIdx k
    · subst hij
      rw [Function.update_same]
      refine ⟨?_, hinv'⟩
      rw [hins, ht, tblInsert_of_not_mem (by rw [← ht]; exact hk_not),
        fiber_append, fiber_cons_same (i := shardIdx k) (e := (k, v)) rfl,
        fiber_nil]
    · rw [Function.update_noteq hij]
      obtain ⟨hti, hinvi⟩ := hsh i
      refine ⟨?_, hinvi⟩
      rw [hti, fiber_append, fiber_cons_other (fun hh => hij hh.symm),
        fiber_nil, List.append_nil]
  · exact hpw'

lemma mapInv_delete_head {m : shardedMap} {k v : Nat}
    {rest : List (Nat × Nat)} (hinv : MapInv m ((k, v) :: rest)) :
    MapInv (m.Delete k) rest := by
  obtain ⟨hsh, hpw⟩ := hinv
  obtain ⟨ht, hinvj⟩ := hsh (shardIdx k)
  obtain ⟨hdel, hinv', hpw'⟩ := mapShard.Delete_spec k hinvj hpw
  have hthead : tblOf (m.shards (shardIdx k)) = (k, v) :: fiber (shardIdx k) rest := by
    rw [ht, fiber_cons_same (i := shardIdx k) (e := (k, v)) rfl]
  rw [shardedMap.Delete_def]
  constructor
  · intro i
    dsimp only
    by_cases hij : i = shardIdx k
    · subst hij
      rw [Function.update_same]
      refine ⟨?_, hinv'⟩
      rw [hdel, hthead]
      simp [tblErase]
    · rw [Function.update_noteq hij]
      obtain ⟨hti, hinvi⟩ := hsh i
      refine ⟨?_, hinvi⟩
      rw [hti, fiber_cons_other (fun hh => hij hh.symm)]
  · exact hpw'

lemma mapSetList_inv : ∀ (kvs : List (Nat × Nat)) (m : shardedMap)
    (done : List (Nat × Nat)), MapInv m done →
    (((done ++ kvs).map Prod.fst).Nodup) →
    MapInv (mapSetList m kvs) (done ++ kvs) := by
  intro kvs
  induction kvs with
  | nil =>
    intro m done hinv _
    simpa [mapSetList] using hinv
  | cons e rest ih =>
    intro m done hinv hnd
    have hfresh : e.1 ∉ done.map Prod.fst := by
      rw [List.map_append, List.nodup_append] at hnd
      intro hmem
      exact hnd.2.2 hmem (by simp)
    have hstep := mapInv_set (k := e.1) (v := e.2) hinv hfresh
    rw [mapSetList_cons]
    have heq : done ++ [(e.1, e.2)] ++ rest = done ++ e :: rest := by
      simp
    have := ih (m.Set e.1 e.2) (done ++ [(e.1, e.2)]) hstep
      (by rw [heq]; exact hnd)
    rw [heq] at this
    exact this

lemma mapDeleteList_inv : ∀ (rem : List (Nat × Nat)) (m : shardedMap),
    MapInv m rem → MapInv (mapDeleteList m (rem.map Prod.fst)) [] := by
  intro rem
  induction rem with
  | nil =>
    intro m hinv
    simpa [mapDeleteList] using hinv
  | cons e rest ih =>
    intro m hinv
    rw [List.map_cons, mapDeleteList_cons]
    exact ih (m.Delete e.1) (mapInv_delete_head (v := e.2) hinv)

lemma fiber_length_sum (l : List (Nat × Nat)) :
    (Finset.univ.sum fun i : Fin mapShards => ((fiber i l).length : Int)) =
      (l.length : Int) := by
  induction l with
  | nil => simp [fiber_nil]
  | cons e rest ih =>
    have hsplit : ∀ i : Fin mapShards, ((fiber i (e :: rest)).length : Int) =
        (if shardIdx e.1 = i then 1 else 0) + ((fiber i rest).length : Int) := by
      intro i
      by_cases h : shardIdx e.1 = i
      · rw [fiber_cons_same h, if_pos h, List.length_cons]
        push_cast
        ring
      · rw [fiber_cons_other h, if_neg h]
        ring
    rw [Finset.sum_congr rfl fun i _ => hsplit i, Finset.sum_add_distrib, ih]
    rw [Finset.sum_ite_eq Finset.univ (shardIdx e.1)
      (fun _ => (1 : Int))]
    rw [List.length_cons]
    push_cast
    simp [Finset.mem_univ]
    ring

lemma mapInv_count {m : shardedMap} {l : List (Nat × Nat)}
    (hinv : MapInv m l) : m.Count = (l.length : Int) := by
  unfold shardedMap.Count mapShard.Count
  rw [Finset.sum_congr rfl fun i _ => ?_, fiber_length_sum]
  obtain ⟨ht, hinvi⟩ := hinv.1 i
  rw [hinvi.1.2.1, ht]

lemma mapInv_get {m : shardedMap} {l : List (Nat × Nat)} {k v : Nat}
    (hinv : MapInv m l) (hmem : (k, v) ∈ l)
    (hnd : (l.map Prod.fst).Nodup) : m.Get k = some v := by
  unfold shardedMap.Get
  rw [mapShard.Get_eq]
  obtain ⟨ht, _⟩ := hinv.1 (shardIdx k)
  rw [ht]
  apply tblLookup_of_mem
  · exact List.mem_filter.mpr ⟨hmem, by simp⟩
  · exact hnd.sublist (map_fst_fiber_sublist (shardIdx k) l)

lemma mapInv_final {m : shardedMap} (hinv : MapInv m []) :
    (∀ i, (m.shards i).entries = none) ∧ m.Count = 0 := by
  constructor
  · intro i
    obtain ⟨ht, hfull⟩ := hinv.1 i
    rcases h : (m.shards i).entries with _ | t
    · rfl
    · exfalso
      apply hfull.2 t h
      have htbl : tblOf (m.shards i) = t.entries := by simp [tblOf, h]
      rw [← htbl, ht, fiber_nil]
  · have := mapInv_count hinv
    simpa using this

/-! ## Remaining support lemmas for the claim theorems -/

lemma clog2_of_not_pow {v : Nat} (hv : 0 < v) (hnp : ¬∃ k, v = 2 ^ k) :
    Nat.clog 2 v = Nat.log 2 v + 1 := by
  have h2 : 2 ≤ v := by
    rcases Nat.lt_or_ge v 2 with h | h
    · exfalso; exact hnp ⟨0, by omega⟩
    · exact h
  rw [clog2_eq_log_pred h2, log2_pred_of_not_pow h2 hnp]

lemma mapPool.Get_pos_eq {p : mapPool} {L : Nat} (h0 : ¬L = 0)
    (hL : L < 2 ^ 32) :
    p.Get L = if L > p.maxSize then (⟨[], L⟩, p)
      else if nextLogBase2 L ≥ maxMapPower then (⟨[], L⟩, p)
      else match p.buckets (nextLogBase2 L) with
        | t :: rest => (t, { p with buckets := fun i =>
            (if i = nextLogBase2 L then rest else p.buckets i) })
        | [] => (⟨[], 2 ^ nextLogBase2 L⟩, p) := by
  unfold mapPool.Get
  dsimp only
  rw [if_neg h0, Nat.mod_eq_of_lt hL]

lemma mapPool.Put_discard_unsuitable (p : mapPool) (m : Table)
    (h : m.entries.length = 0 ∨ m.entries.length > p.maxSize) :
    p.Put m = p := by
  unfold mapPool.Put
  dsimp only
  rw [if_pos h]

lemma mapPool.Put_discard_out_of_range (p : mapPool) (m : Table)
    (h : ¬(m.entries.length = 0 ∨ m.entries.length > p.maxSize))
    (hL : m.entries.length < 2 ^ 32)
    (hidx : prevLogBase2 m.entries.length ≥ maxMapPower) : p.Put m = p := by
  unfold mapPool.Put
  dsimp only
  rw [if_neg h, Nat.mod_eq_of_lt hL, if_pos hidx]

lemma mapPool.Put_push (p : mapPool) (m : Table)
    (h : ¬(m.entries.length = 0 ∨ m.entries.length > p.maxSize))
    (hL : m.entries.length < 2 ^ 32)
    (hidx : ¬prevLogBase2 m.entries.length ≥ maxMapPower) :
    p.Put m = { p with buckets := fun i =>
      (if i = prevLogBase2 m.entries.length then ⟨[], m.cap⟩ :: p.buckets i
       else p.buckets i) } := by
  unfold mapPool.Put
  dsimp only
  rw [if_neg h, Nat.mod_eq_of_lt hL, if_neg hidx]

/-! # Claim theorems -/

/-- C3: for every finite sequence of Set/Delete/Compact operations applied
to one shard (starting from the empty shard), the shard's `count` equals
the number of distinct keys whose most recent operation was Set and not
superseded by Delete (`liveKeys`), `count` is never negative, and
`countHigh ≥ count` holds at every point; after a full drain
(`count = 0`) both counters are exactly 0 and the table is absent. -/
theorem c3_shard_counter_invariants (ops : List ShardOp) :
    (runShardOps ops).1.count = ((liveKeys ops).length : Int) ∧
    0 ≤ (runShardOps ops).1.count ∧
    (runShardOps ops).1.count ≤ (runShardOps ops).1.countHigh ∧
    ((runShardOps ops).1.count = 0 →
      (runShardOps ops).1.countHigh = 0 ∧
      (runShardOps ops).1.entries = none) := by
  obtain ⟨hinv, hpw, hkeys⟩ := runShardOps_inv ops
  obtain ⟨⟨hnd, hcnt, hle, hnone⟩, hsome⟩ := hinv
  have hlen : (tblOf (runShardOps ops).1).length = (liveKeys ops).length := by
    rw [← hkeys, List.length_map]
  refine ⟨by rw [hcnt, hlen], by rw [hcnt]; exact_mod_cast Int.natCast_nonneg _,
    hle, ?_⟩
  intro h0
  have htnil : tblOf (runShardOps ops).1 = [] := by
    rw [hcnt] at h0
    exact List.length_eq_zero.mp (by exact_mod_cast h0)
  have hent : (runShardOps ops).1.entries = none := by
    rcases h : (runShardOps ops).1.entries with _ | t
    · rfl
    · exfalso
      apply hsome t h
      rw [show tblOf (runShardOps ops).1 = t.entries from by simp [tblOf, h]]
        at htnil
      exact htnil
  exact ⟨hnone hent, hent⟩

/-- C3 witness: the invariants instantiated on the concrete history
`Set 1 2; Delete 1`, which fully drains the shard. -/
theorem c3_shard_counter_invariants_witness :
    (runShardOps [ShardOp.set 1 2, ShardOp.del 1]).1.count =
      ((liveKeys [ShardOp.set 1 2, ShardOp.del 1]).length : Int) ∧
    0 ≤ (runShardOps [ShardOp.set 1 2, ShardOp.del 1]).1.count ∧
    (runShardOps [ShardOp.set 1 2, ShardOp.del 1]).1.count ≤
      (runShardOps [ShardOp.set 1 2, ShardOp.del 1]).1.countHigh ∧
    ((runShardOps [ShardOp.set 1 2, ShardOp.del 1]).1.count = 0 →
      (runShardOps [ShardOp.set 1 2, ShardOp.del 1]).1.countHigh = 0 ∧
      (runShardOps [ShardOp.set 1 2, ShardOp.del 1]).1.entries = none) :=
  c3_shard_counter_invariants [ShardOp.set 1 2, ShardOp.del 1]

/-- C6: `nextLogBase2` and `prevLogBase2` are pure integer functions which
on positive `uint32` inputs compute ceil-log2 and floor-log2; they agree
exactly on powers of two and differ by one otherwise; and they take the
claimed values on the claimed inputs. -/
theorem c6_log2_functions :
    (∀ v, 0 < v → v < 2 ^ 32 →
      nextLogBase2 v = Nat.clog 2 v ∧ prevLogBase2 v = Nat.log 2 v ∧
      ((∃ k, v = 2 ^ k) → prevLogBase2 v = nextLogBase2 v) ∧
      (¬(∃ k, v = 2 ^ k) → prevLogBase2 v = nextLogBase2 v - 1)) ∧
    (nextLogBase2 1 = 0 ∧ nextLogBase2 2 = 1 ∧ nextLogBase2 3 = 2 ∧
     nextLogBase2 4 = 2 ∧ nextLogBase2 5 = 3 ∧ nextLogBase2 8 = 3 ∧
     nextLogBase2 9 = 4 ∧ nextLogBase2 16 = 4 ∧ nextLogBase2 1024 = 10) ∧
    (prevLogBase2 1 = 0 ∧ prevLogBase2 2 = 1 ∧ prevLogBase2 3 = 1 ∧
     prevLogBase2 4 = 2 ∧ prevLogBase2 8 = 3 ∧ prevLogBase2 9 = 3 ∧
     prevLogBase2 15 = 3 ∧ prevLogBase2 16 = 4 ∧ prevLogBase2 1024 = 10) := by
  refine ⟨?_, ?_, ?_⟩
  · intro v hv hlt
    refine ⟨nextLogBase2_eq_clog hv hlt, prevLogBase2_eq_log hv hlt, ?_, ?_⟩
    · intro hpow
      rw [prevLogBase2_eq_log hv hlt, nextLogBase2_eq_clog hv hlt]
      obtain ⟨k, rfl⟩ := hpow
      rw [Nat.log_pow one_lt_two, Nat.clog_pow 2 k one_lt_two]
    · intro hnpow
      rw [prevLogBase2_eq_log hv hlt, nextLogBase2_eq_clog hv hlt,
        clog2_of_not_pow hv hnpow]
      omega
  · exact ⟨by decide, by decide, by decide, by decide, by decide, by decide,
      by decide, by decide, by decide⟩
  · exact ⟨by decide, by decide, by decide, by decide, by decide, by decide,
      by decide, by decide, by decide⟩

/-- C6 witness: the general part instantiated at `v = 12`. -/
theorem c6_log2_functions_witness :
    nextLogBase2 12 = Nat.clog 2 12 ∧ prevLogBase2 12 = Nat.log 2 12 := by
  have h := c6_log2_functions.1 12 (by decide) (by decide)
  exact ⟨h.1, h.2.1⟩

/-- C8: the `uint64` fast path of the routing function returns
`key & (shardCount - 1)`, which equals `key mod 32`; keys 5 and 37 route
to the same shard, keys 5 and 6 to different shards; the result is always
a valid shard index, and routing is a pure function of the key (hence
deterministic for the lifetime of an instance). -/
theorem c8_routing :
    (∀ id : Nat, getMapShardKey id = id % mapShards) ∧
    getMapShardKey 5 = getMapShardKey 37 ∧
    getMapShardKey 5 ≠ getMapShardKey 6 ∧
    (∀ id : Nat, getMapShardKey id < mapShards) :=
  ⟨getMapShardKey_eq_mod, by decide, by decide, fun id => (shardIdx id).isLt⟩

/-- C9: `Compact` never changes the observable key-value content of a
shard: on every state reachable by a history of Set/Delete/Compact
operations, `Get` returns the same result before and after `Compact`. -/
theorem c9_compact_preserves_get (ops : List ShardOp) (k : Nat) :
    (((runShardOps ops).1.Compact (runShardOps ops).2).1).Get k =
      (runShardOps ops).1.Get k := by
  obtain ⟨hinv, hpw, _⟩ := runShardOps_inv ops
  obtain ⟨ht, _, _, _, _⟩ := mapShard.Compact_spec hinv.1 hpw
  rw [mapShard.Get_eq, mapShard.Get_eq, ht]

/-- C10: `Put` on an empty table changes no bucket, and a Delete that
fully drains a reachable shard leaves the pool exactly unchanged even
though the drain branch of `Compact` invokes `Put` on the released table
(the table is empty at that point, so it is discarded). -/
theorem c10_drained_table_discarded :
    (∀ (p : mapPool) (c : Nat), p.Put ⟨[], c⟩ = p) ∧
    (∀ (ops : List ShardOp) (k : Nat), (runShardOps ops).1.count = 1 →
      (runShardOps ops).1.Get k ≠ none →
      (runShardOps ops).1.Delete (runShardOps ops).2 k =
        (⟨none, 0, 0⟩, (runShardOps ops).2)) := by
  refine ⟨fun p c => mapPool.Put_empty p rfl, fun ops k h1 hk => ?_⟩
  obtain ⟨hinv, hpw, _⟩ := runShardOps_inv ops
  exact mapShard.Delete_drain hinv hpw h1 hk

/-- C10 witness: after the single-element history `Set 3 5`, deleting
key 3 drains the shard and returns the pool unchanged. -/
theorem c10_drained_table_discarded_witness :
    (runShardOps [ShardOp.set 3 5]).1.Delete
        (runShardOps [ShardOp.set 3 5]).2 3 =
      (⟨none, 0, 0⟩, (runShardOps [ShardOp.set 3 5]).2) :=
  c10_drained_table_discarded.2 [ShardOp.set 3 5] 3 (by decide) (by decide)

/-- C1 counterexample: fill one shard to `count = 1000` (so
`countHigh = 1000`) and delete keys 0..899 one at a time, reaching
`count = 100`.  Because `Compact` runs after every delete, the shard has
already shrunk at `count = 124` and `countHigh` is 124 — not ≈ 200 — and
the next Delete's Compact does not shrink: the table installed at
`count = 124` (whose 124 entries were re-baselined into `countHigh`, not
the table's capacity 256) stays in place and `countHigh` stays 124. -/
theorem c1_counterexample :
    c1Run.1.count = 100 ∧ c1Run.1.countHigh = 124 ∧
    c1Run.1.entries = some ⟨pairList 900 100, 256⟩ ∧
    mapShard.Delete c1Run.1 c1Run.2 900 =
      (shardSt 901 99 256 ((124 : Nat) : Int), c1Run.2) := by
  rw [c1_trace]
  refine ⟨by norm_num [shardSt], by norm_num [shardSt], rfl, ?_⟩
  have h := shardSt_delete_head (a := 900) (n := 100) (c := 256)
    (H := ((124 : Nat) : Int)) c1Pool (by norm_num)
    (by norm_num [maxMapSize, maxMapPower]) (by norm_num)
  rw [h]

/-- C1 (amended): when `Shard.Compact` takes the shrink branch it obtains
a new table from the Pool sized at `count * 2`, copies every live entry
into it, returns the old table to the Pool, installs the new table, and
resets `countHigh` (and `count`) to the number of entries of the new
table — `len(newMap)`, which equals the live count — not to the table's
capacity; in the fill-to-1000-then-delete scenario the shrink accordingly
fires already at the Delete that brings `count` to 124 (the first count
with `count * 8 < 1000`), requesting a table for `2 * 124 = 248` from the
Pool (a fresh table of capacity `2 ^ 8 = 256`), pushing the old cleared
table into bucket `prevLogBase2 124 = 6`, and resetting `countHigh` to
124. -/
theorem c1_compact_shrink_behaviour :
    (∀ (s : mapShard) (p : mapPool) (t : Table), s.entries = some t →
      (t.entries.map Prod.fst).Nodup → s.count = (t.entries.length : Int) →
      s.count ≠ 0 → ¬s.count > (maxMapSize : Int) →
      ¬s.count * mapShrinkFactor ≥ s.countHigh → PoolWF p →
      s.Compact p =
        (⟨some ⟨t.entries,
            ((p.Get (((s.count % 2 ^ 32).toNat * 2) % 2 ^ 32)).1).cap⟩,
          (t.entries.length : Int), (t.entries.length : Int)⟩,
         ((p.Get (((s.count % 2 ^ 32).toNat * 2) % 2 ^ 32)).2).Put t)) ∧
    mapShard.Delete (shardSt 875 125 32 ((1000 : Nat) : Int)) pool0 875 =
      (shardSt 876 124 256 ((124 : Nat) : Int), c1Pool) :=
  ⟨fun _ _ _ ht hnd hcnt hc hmax hsh hp =>
    mapShard.Compact_shrink ht hnd hcnt hc hmax hsh hp, c1_shrink_step⟩

/-- C1 witness: the shrink branch evaluated on a small concrete state
(one live entry, `countHigh = 99`): the pool serves a fresh table for the
request `2 * 1 = 2` (capacity 2) and both counters re-baseline to 1. -/
theorem c1_compact_shrink_behaviour_witness :
    mapShard.Compact ⟨some ⟨[(3, 7)], 32⟩, 1, 99⟩ pool0 =
      (⟨some ⟨[(3, 7)], 2⟩, 1, 1⟩, pool0.Put ⟨[(3, 7)], 32⟩) := by
  have h := c1_compact_shrink_behaviour.1 ⟨some ⟨[(3, 7)], 32⟩, 1, 99⟩ pool0
    ⟨[(3, 7)], 32⟩ rfl (by simp) (by simp) (by norm_num)
    (by norm_num [maxMapSize, maxMapPower])
    (by rw [show mapShrinkFactor = (8 : Int) from rfl]; norm_num)
    poolWF_pool0
  exact h

/-- C2 counterexample: the `pools` array has `maxMapPower` buckets, not
`maxMapPower + 1`; and for `requestedLength = 2 ^ 19 + 1`, which is within
`(0, maxSize]`, the computed index `ceil(log2) = 20 = maxMapPower` is out
of the bucket range, so `Get` allocates untracked (a fresh table with the
exact capacity hint `2 ^ 19 + 1`, pool unchanged) instead of serving the
request through a bucket. -/
theorem c2_counterexample :
    poolBucketCount ≠ maxMapPower + 1 ∧
    0 < 2 ^ 19 + 1 ∧ ¬2 ^ 19 + 1 > pool0.maxSize ∧
    nextLogBase2 (2 ^ 19 + 1) = maxMapPower ∧
    pool0.Get (2 ^ 19 + 1) = (⟨[], 2 ^ 19 + 1⟩, pool0) :=
  ⟨by decide, by decide, by decide, by decide, rfl⟩

/-- C2 (amended): the Pool maintains `maxMapPower` buckets (indices
`0 .. maxMapPower - 1`); for every positive `requestedLength` not above
`maxSize` whose index `idx = nextLogBase2 requestedLength` is inside that
range, `Get` serves the request through bucket `idx` — popping the pooled
table if one is present, else allocating a fresh table of capacity
`2 ^ idx`; when `idx ≥ maxMapPower` (which happens for
`requestedLength ∈ (2 ^ (maxMapPower - 1), maxSize]`), `Get` instead
allocates untracked. -/
theorem c2_pool_buckets_and_get :
    poolBucketCount = maxMapPower ∧
    (∀ (p : mapPool) (L : Nat), 0 < L → ¬L > p.maxSize → L < 2 ^ 32 →
      ¬nextLogBase2 L ≥ maxMapPower →
      ((p.buckets (nextLogBase2 L) = [] →
        p.Get L = (⟨[], 2 ^ nextLogBase2 L⟩, p)) ∧
       (∀ t rest, p.buckets (nextLogBase2 L) = t :: rest →
        p.Get L = (t, { p with buckets := fun i =>
          (if i = nextLogBase2 L then rest else p.buckets i) })))) ∧
    (∀ (p : mapPool) (L : Nat), 0 < L → ¬L > p.maxSize → L < 2 ^ 32 →
      nextLogBase2 L ≥ maxMapPower → p.Get L = (⟨[], L⟩, p)) := by
  refine ⟨rfl, ?_, ?_⟩
  · intro p L h0 hmax hL hidx
    rw [mapPool.Get_pos_eq (by omega) hL, if_neg hmax, if_neg hidx]
    constructor
    · intro hb
      rw [hb]
    · intro t rest hb
      rw [hb]
  · intro p L h0 hmax hL hidx
    rw [mapPool.Get_pos_eq (by omega) hL, if_neg hmax, if_pos hidx]

/-- C2 witness: `Get 16` on the fresh pool: index 4 is in range, bucket 4
is empty, so a fresh table of capacity `2 ^ 4 = 16` is allocated and the
pool is unchanged. -/
theorem c2_pool_buckets_and_get_witness :
    pool0.Get 16 = (⟨[], 2 ^ nextLogBase2 16⟩, pool0) :=
  (c2_pool_buckets_and_get.2.1 pool0 16 (by decide) (by decide) (by decide)
    (by decide)).1 rfl

/-- C5 counterexample: filling the Baseline Map to `count = 1000` and
deleting one key at a time, the map has already shrunk at `count = 9`
(re-baselining `countHigh` to 9), so once `count` drops to 5 nothing
shrinks: `Compact` at the `count = 5` state is a no-op (`500 ≥ 9`) and
`countHigh` is 9, not 1000. -/
theorem c5_counterexample :
    c5Run.count = 5 ∧ c5Run.countHigh = 9 ∧ simpleMap.Compact c5Run = c5Run := by
  rw [c5_trace]
  refine ⟨by norm_num [simpleSt], by norm_num [simpleSt], ?_⟩
  exact simpleMap.Compact_noop_baseline (by norm_num [simpleSt]) (by norm_num [simpleSt])

/-- C5 (amended): the Baseline Map's Compact shrinks exactly when
`count ≠ 0` and `count * 100 < countHigh`, with no `maxSize` bound
suppressing shrinks; under the fill-to-1000-then-delete sequence it does
NOT shrink at `count = 100` (the state still has its original table, size
hint 32, and `countHigh = 1000`), the first shrink fires at the Delete
that brings `count` to 9 (`900 < 1000`), reallocating with size hint
`2 * 9 = 18` and re-baselining `countHigh` to 9 (the number of live
entries, not the capacity ≈ 10 that `count = 5` would suggest). -/
theorem c5_baseline_shrink_behaviour :
    (∀ (m : simpleMap), m.count ≠ 0 → m.count * 100 ≥ m.countHigh →
      m.Compact = m) ∧
    (∀ (m : simpleMap) (t : Table), m.entries = some t →
      (t.entries.map Prod.fst).Nodup → m.count ≠ 0 →
      ¬m.count * 100 ≥ m.countHigh →
      m.Compact = ⟨some ⟨t.entries, (m.count * 2).toNat⟩,
        (t.entries.length : Int), (t.entries.length : Int)⟩) ∧
    c5Run100 = simpleSt 900 100 32 ((1000 : Nat) : Int) ∧
    simpleMap.Compact c5Run100 = c5Run100 ∧
    simpleMap.Delete (simpleSt 990 10 32 ((1000 : Nat) : Int)) 990 =
      simpleSt 991 9 18 ((9 : Nat) : Int) ∧
    c5Run = simpleSt 995 5 18 ((9 : Nat) : Int) := by
  refine ⟨fun m hc hsh => simpleMap.Compact_noop_baseline hc hsh,
    fun m t ht hnd hc hsh => simpleMap.Compact_shrink_baseline ht hnd hc hsh,
    c5_trace100, ?_, c5_shrink_step, c5_trace⟩
  rw [c5_trace100]
  exact simpleMap.Compact_noop_baseline (by norm_num [simpleSt]) (by norm_num [simpleSt])

/-- C5 witness: the shrink branch evaluated on a small concrete baseline
state (one live entry, `countHigh = 1000`): reallocation with size hint 2
and both counters re-baselined to 1. -/
theorem c5_baseline_shrink_behaviour_witness :
    simpleMap.Compact ⟨some ⟨[(1, 2)], 32⟩, 1, 1000⟩ =
      ⟨some ⟨[(1, 2)], 2⟩, 1, 1⟩ := by
  have h := c5_baseline_shrink_behaviour.2.1 ⟨some ⟨[(1, 2)], 32⟩, 1, 1000⟩
    ⟨[(1, 2)], 32⟩ rfl (by simp) (by norm_num) (by norm_num)
  exact h

/-- C7 counterexample: a table holding exactly `maxMapSize = 2 ^ 20`
entries is neither empty nor longer than `maxSize`, yet `Put` discards it
(its bucket index `floor(log2(2 ^ 20)) = 20 = maxMapPower` is out of the
bucket range), leaving the pool unchanged instead of pushing the table
into a bucket. -/
theorem c7_counterexample :
    (pairList 0 maxMapSize).length ≠ 0 ∧
    ¬(pairList 0 maxMapSize).length > pool0.maxSize ∧
    pool0.Put ⟨pairList 0 maxMapSize, maxMapSize⟩ = pool0 := by
  refine ⟨by rw [length_pairList]; decide, by rw [length_pairList]; decide, ?_⟩
  apply mapPool.Put_discard_out_of_range
  · rw [show Table.entries ⟨pairList 0 maxMapSize, maxMapSize⟩ =
      pairList 0 maxMapSize from rfl, length_pairList]
    decide
  · rw [show Table.entries ⟨pairList 0 maxMapSize, maxMapSize⟩ =
      pairList 0 maxMapSize from rfl, length_pairList]
    decide
  · rw [show Table.entries ⟨pairList 0 maxMapSize, maxMapSize⟩ =
      pairList 0 maxMapSize from rfl, length_pairList]
    decide

/-- C7 (amended): `Put` never fails, and for every table argument: if the
table is empty or longer than `maxSize` it is discarded with no bucket
change; if its bucket index `prevLogBase2 length` is out of the bucket
range (within `length ≤ maxSize` this happens exactly at
`length = maxSize = 2 ^ maxMapPower`) it is likewise discarded; otherwise
it is cleared (capacity hint preserved) and pushed into bucket
`floor(log2(length))`. -/
theorem c7_put_behaviour :
    (∀ (p : mapPool) (m : Table),
      m.entries.length = 0 ∨ m.entries.length > p.maxSize → p.Put m = p) ∧
    (∀ (p : mapPool) (m : Table),
      ¬(m.entries.length = 0 ∨ m.entries.length > p.maxSize) →
      m.entries.length < 2 ^ 32 →
      prevLogBase2 m.entries.length ≥ maxMapPower → p.Put m = p) ∧
    (∀ (p : mapPool) (m : Table),
      ¬(m.entries.length = 0 ∨ m.entries.length > p.maxSize) →
      m.entries.length < 2 ^ 32 →
      ¬prevLogBase2 m.entries.length ≥ maxMapPower →
      p.Put m = { p with buckets := fun i =>
        (if i = prevLogBase2 m.entries.length then ⟨[], m.cap⟩ :: p.buckets i
         else p.buckets i) }) :=
  ⟨mapPool.Put_discard_unsuitable, mapPool.Put_discard_out_of_range,
    mapPool.Put_push⟩

/-- C7 witness: a three-entry table is cleared and pushed into bucket
`floor(log2 3) = 1`, its capacity hint preserved. -/
theorem c7_put_behaviour_witness :
    pool0.Put ⟨[(1, 1), (2, 2), (3, 3)], 8⟩ =
      { pool0 with buckets := fun i =>
        (if i = 1 then [⟨[], 8⟩] else []) } := by
  have h := c7_put_behaviour.2.2 pool0 ⟨[(1, 1), (2, 2), (3, 3)], 8⟩
    (by decide) (by decide) (by decide)
  exact h

/-- C4: constructing the 32-shard map and setting keys 0..9999 (each with
the value it determines), `Count()` returns 10000 and `Get` finds every
stored value; after deleting all 10000 keys, `Count()` returns 0 and
every one of the 32 shards' backing tables is absent (each shard fully
drained, its last table passed to the Pool's `Put` by the drain branch of
`Compact`). -/
theorem c4_end_to_end :
    c4SetRun.Count = 10000 ∧
    (∀ k, k < 10000 → c4SetRun.Get k = some k) ∧
    c4DelRun.Count = 0 ∧
    (∀ i, (c4DelRun.shards i).entries = none) := by
  have hnd : ((pairList 0 10000).map Prod.fst).Nodup :=
    nodup_map_fst_pairList 0 10000
  have hinv1 : MapInv c4SetRun (pairList 0 10000) := by
    have h := mapSetList_inv (pairList 0 10000) shardedMap.Init []
      mapInv_init (by simpa using hnd)
    simpa using h
  have hinv2 : MapInv c4DelRun [] := by
    have h := mapDeleteList_inv (pairList 0 10000) c4SetRun hinv1
    rw [map_fst_pairList] at h
    exact h
  refine ⟨?_, ?_, ?_, ?_⟩
  · have h := mapInv_count hinv1
    rw [length_pairList] at h
    exact_mod_cast h
  · intro k hk
    have hmem : (k, k) ∈ pairList 0 10000 :=
      mem_pairList.mpr ⟨Nat.zero_le k, by show k < 0 + 10000; omega, rfl⟩
    exact mapInv_get hinv1 hmem hnd
  · exact (mapInv_final hinv2).2
  · exact (mapInv_final hinv2).1

/-- C4 witness: the per-key lookup instantiated at key 7. -/
theorem c4_end_to_end_witness : c4SetRun.Get 7 = some 7 :=
  c4_end_to_end.2.1 7 (by norm_num)
